import Mathlib

/-!
Verification of the combinational digital-logic simulator
(`src/circuit/mod.rs`, `src/component/*.rs`).

The Rust code is shallowly embedded as follows.

* `Potential` is `Bool`.  A `Wire` holds one `Potential` and its `input`
  method overwrites it; a wire is therefore embedded as the `Bool` it holds.
* Primitive gate structs (`ANDGate`, `ORGate`, ...) each own exactly one
  output wire, written with the result of their boolean operator by the
  gate's `input` method; a gate is embedded as the `Bool` of that wire.
* The fixed-size pin arrays (`[Wire; k]`, `Vec<Wire>`) of a component are
  embedded as total functions `Nat → Bool`; positions outside the pin range
  are never read or written by the translated code because every public
  entry point asserts its pin bound first.
* A Rust `panic!`/`assert!` abort is embedded as `Option.none`: the checked
  operations (`set_pin_input`, `get_pin_output`, the batch `input`, the
  `Potentials` string codec) return `Option` values.
* `String` values of the codec are embedded as `List Char`.
-/

/-- Boolean operator of `circuit::operator_not`. -/
def operator_not (a : Bool) : Bool := !a

/-- Boolean operator of `circuit::operator_and`. -/
def operator_and (a b : Bool) : Bool := a && b

/-- Boolean operator of `circuit::operator_or`. -/
def operator_or (a b : Bool) : Bool := a || b

/-- Boolean operator of `circuit::operator_xor`. -/
def operator_xor (a b : Bool) : Bool := xor a b

/-- The `Potentials` value type of `circuit/mod.rs`: an ordered bit
sequence plus its storage-endianness tag. -/
structure Potentials where
  data : List Bool
  little_endian : Bool
deriving DecidableEq

/-- Constructor `Potentials::of_little_endian`. -/
def Potentials.of_little_endian (potentials : List Bool) : Potentials :=
  { data := potentials, little_endian := true }

/-- Constructor `Potentials::of_big_endian`. -/
def Potentials.of_big_endian (potentials : List Bool) : Potentials :=
  { data := potentials, little_endian := false }

/-- Method `Potentials::get_data`: reverse the stored data exactly when the
requested endianness differs from the stored one. -/
def Potentials.get_data (p : Potentials) (little_endian : Bool) : List Bool :=
  if xor p.little_endian little_endian then p.data.reverse else p.data

/-- Method `Potentials::len`. -/
def Potentials.len (p : Potentials) : Nat := p.data.length

/-- One iteration of the character loop of `Potentials::from_little_endian`.
The fold state is the `data` accumulator together with the `ignore` flag;
the `panic!` on a foreign character is `none`. -/
def fromLEStep (ignore_padding : Bool) (st : List Bool × Bool) (c : Char) :
    Option (List Bool × Bool) :=
  if c = '0' then
    let ignore := st.2 && true
    some (if !ignore_padding || (ignore_padding && !ignore)
          then st.1 ++ [false] else st.1, ignore)
  else if c = '1' then
    some (st.1 ++ [true], st.2 && false)
  else if c = ' ' then
    some st
  else
    none

/-- Parser `Potentials::from_little_endian`: iterate over the characters in
reverse, fold with `fromLEStep` starting from an empty accumulator and
`ignore = true`, then reverse the accumulated data. -/
def Potentials.from_little_endian (little_endian : List Char) (ignore_padding : Bool) :
    Option Potentials :=
  (little_endian.reverse.foldlM (fromLEStep ignore_padding) ([], true)).map
    fun st => { data := st.1.reverse, little_endian := true }

/-- One iteration of the character loop of `Potentials::from_big_endian`
(same fold state as `fromLEStep`, with the source's own branch structure
for `'0'`). -/
def fromBEStep (ignore_padding : Bool) (st : List Bool × Bool) (c : Char) :
    Option (List Bool × Bool) :=
  if c = '0' then
    let ignore := st.2 && true
    some (if !ignore_padding then (st.1 ++ [false], ignore)
          else if !ignore then (st.1 ++ [false], ignore)
          else (st.1, ignore))
  else if c = '1' then
    some (st.1 ++ [true], st.2 && false)
  else if c = ' ' then
    some st
  else
    none

/-- Parser `Potentials::from_big_endian`: fold forwards over the characters
with `fromBEStep`; no final reversal. -/
def Potentials.from_big_endian (big_endian : List Char) (ignore_padding : Bool) :
    Option Potentials :=
  (big_endian.foldlM (fromBEStep ignore_padding) ([], true)).map
    fun st => { data := st.1, little_endian := false }

/-- The character pushed for one bit by `Potentials::to_raw`. -/
def bitChar (p : Bool) : Char := if p then '1' else '0'

/-- The `padding` computation of the inner `format` helper of
`Potentials::to_raw`. -/
def padCount (format_type length : Nat) : Nat :=
  if format_type = 1 ∧ length % 4 ≠ 0 then 4 - length % 4
  else if format_type = 2 ∧ length % 8 ≠ 0 then 8 - length % 8
  else 0

/-- The item loop of the inner `format` helper of `Potentials::to_raw`:
push the bit character, advance the cursor, and push a group separator
space after every 4th (format 1) or 8th (format 2) cursor position. -/
def formatLoop (format_type : Nat) : Nat → List Bool → List Char
  | _, [] => []
  | cursor, p :: rest =>
    let c := cursor + 1
    bitChar p ::
      (if format_type = 1 ∧ c % 4 = 0 ∧ c ≠ 0 then ' ' :: formatLoop format_type c rest
       else if format_type = 2 ∧ c % 8 = 0 ∧ c ≠ 0 then ' ' :: formatLoop format_type c rest
       else formatLoop format_type c rest)

/-- Rust `str::trim_end` on the codec's output; the produced strings only
ever contain `'0'`, `'1'` and `' '`, so only trailing spaces are removed. -/
def trimEnd (s : List Char) : List Char :=
  (s.reverse.dropWhile fun c => c = ' ').reverse

/-- The inner `format` helper of `Potentials::to_raw`: big-endian output is
padded with zeros at the front (cursor starts past the padding), little-endian
output is padded at the end, and the result is right-trimmed. -/
def formatRaw (items : List Bool) (format_type : Nat) (little_endian : Bool) : List Char :=
  let padding := padCount format_type items.length
  let head := if !little_endian then List.replicate padding '0' else []
  let body := formatLoop format_type (if !little_endian then padding else 0) items
  let tail := if little_endian then List.replicate padding '0' else []
  trimEnd (head ++ body ++ tail)

/-- Serializer `Potentials::to_raw`: the `assert!(format_type <= 2)` is the
`none` branch; the data is reversed first exactly when the requested
endianness differs from the stored one. -/
def Potentials.to_raw (p : Potentials) (little_endian : Bool) (format_type : Nat) :
    Option (List Char) :=
  if format_type ≤ 2 then
    if xor p.little_endian little_endian then
      some (formatRaw p.data.reverse format_type little_endian)
    else
      some (formatRaw p.data format_type little_endian)
  else none

example : Potentials.to_raw (Potentials.of_little_endian [true, true, true, true, false]) true 1
    = some ['1', '1', '1', '1', ' ', '0', '0', '0', '0'] := by decide

example : Potentials.to_raw (Potentials.of_big_endian [true, true, true, true, false]) false 1
    = some ['0', '0', '0', '1', ' ', '1', '1', '1', '0'] := by decide

example : Potentials.to_raw (Potentials.of_little_endian [true, true, true]) true 0
    = some ['1', '1', '1'] := by decide

example : (Potentials.from_little_endian ['1', '1', '1', '1', ' ', '0', '0', '0', '0'] false).map
    Potentials.data = some [true, true, true, true, false, false, false, false] := by decide

example : (Potentials.from_big_endian ['0', '0', '1', '1', ' ', '1', '1', '0', '0'] true).map
    Potentials.data = some [true, true, true, true, false, false] := by decide

example : (Potentials.from_little_endian ['0', '0', '1', '1', ' ', '0', '0', '0', '0'] true).map
    Potentials.data = some [false, false, true, true] := by decide

example : Potentials.from_big_endian ['2'] false = none := by decide

/-- The `Component` trait of `component/mod.rs`, as a record of its four
required operations over a component state type.  The checked operations
return `none` where the Rust code panics. -/
structure CompOps (σ : Type) where
  pin_count : σ → Nat × Nat
  set_pin_input : σ → Nat → Bool → Option σ
  get_pin_output : σ → Nat → Option Bool
  update_state : σ → σ

/-- The index loop of the trait-default batch `Component::input`: set pin
`i` to the `i`-th element of the remaining vector. -/
def CompOps.inputGo {σ : Type} (c : CompOps σ) : σ → Nat → List Bool → Option σ
  | s, _, [] => some s
  | s, i, v :: rest => (c.set_pin_input s i v).bind fun s1 => c.inputGo s1 (i + 1) rest

/-- Trait-default batch `Component::input`: `assert!(vec.len() <= inputs)`,
then set pins `0..vec.len()` in order. -/
def CompOps.inputBatch {σ : Type} (c : CompOps σ) (s : σ) (vec : List Bool) : Option σ :=
  if vec.length ≤ (c.pin_count s).1 then c.inputGo s 0 vec else none

/-- Trait-default `Component::fire`: batch input, then `update_state`. -/
def CompOps.fire {σ : Type} (c : CompOps σ) (s : σ) (vec : List Bool) : Option σ :=
  (c.inputBatch s vec).map c.update_state

/-- Trait-default batch `Component::output`: read every output pin in
order (each read is in range, so `getD` never takes its default). -/
def CompOps.outputs {σ : Type} (c : CompOps σ) (s : σ) : List Bool :=
  (List.range (c.pin_count s).2).map fun i => (c.get_pin_output s i).getD false

/-- One input-setting call on a component: a single `set_pin_input` or a
batch `input`. -/
inductive InAct where
  | set : Nat → Bool → InAct
  | batch : List Bool → InAct

/-- Apply one input-setting call. -/
def CompOps.applyAct {σ : Type} (c : CompOps σ) (s : σ) : InAct → Option σ
  | .set p v => c.set_pin_input s p v
  | .batch vs => c.inputBatch s vs

/-- Apply a sequence of input-setting calls. -/
def CompOps.applyActs {σ : Type} (c : CompOps σ) (acts : List InAct) (s : σ) : Option σ :=
  acts.foldlM c.applyAct s

/-- State of `adder::HalfAdder`: two input wires, two output wires, and the
wires of its AND and XOR gates. -/
structure HalfAdder where
  input : Nat → Bool
  output : Nat → Bool
  and_gate : Bool
  xor_gate : Bool

/-- Rust `HalfAdder::default()`: every wire low. -/
def HalfAdder.mkDefault : HalfAdder :=
  { input := fun _ => false, output := fun _ => false, and_gate := false, xor_gate := false }

/-- `HalfAdder::set_pin_input` with its bound assertion. -/
def HalfAdder.set_pin_input (s : HalfAdder) (position : Nat) (value : Bool) : Option HalfAdder :=
  if position < 2 then some { s with input := Function.update s.input position value } else none

/-- `HalfAdder::get_pin_output` with its bound assertion. -/
def HalfAdder.get_pin_output (s : HalfAdder) (position : Nat) : Option Bool :=
  if position < 2 then some (s.output position) else none

/-- `HalfAdder::update_state`: feed both gates from the input wires, then
write output 0 from the XOR gate (sum) and output 1 from the AND gate
(carry). -/
def HalfAdder.update_state (s : HalfAdder) : HalfAdder :=
  let and_gate := operator_and (s.input 0) (s.input 1)
  let xor_gate := operator_xor (s.input 0) (s.input 1)
  { s with
    and_gate := and_gate,
    xor_gate := xor_gate,
    output := Function.update (Function.update s.output 0 xor_gate) 1 and_gate }

/-- The `Component` impl of `HalfAdder` (pin counts `(2, 2)`). -/
def HalfAdder.ops : CompOps HalfAdder where
  pin_count _ := (2, 2)
  set_pin_input := HalfAdder.set_pin_input
  get_pin_output := HalfAdder.get_pin_output
  update_state := HalfAdder.update_state

/-- `half_adder.fire(&vec![a, b])` as one total step: both input pins are
overwritten, then the state is updated (`HalfAdder.ops_fire2` proves it
equal to the trait-default `fire`). -/
def HalfAdder.fire2 (s : HalfAdder) (a b : Bool) : HalfAdder :=
  HalfAdder.update_state
    { s with input := Function.update (Function.update s.input 0 a) 1 b }

theorem HalfAdder.ops_fire2 (s : HalfAdder) (a b : Bool) :
    HalfAdder.ops.fire s [a, b] = some (HalfAdder.fire2 s a b) := rfl

/-- State of `adder::FullAdder`: two half adders, an OR gate wire, three
input wires and two output wires. -/
structure FullAdder where
  half_adder : Nat → HalfAdder
  or_gate : Bool
  input : Nat → Bool
  output : Nat → Bool

/-- Rust `FullAdder::default()`: every wire low. -/
def FullAdder.mkDefault : FullAdder :=
  { half_adder := fun _ => HalfAdder.mkDefault, or_gate := false,
    input := fun _ => false, output := fun _ => false }

/-- `FullAdder::set_pin_input` with its bound assertion. -/
def FullAdder.set_pin_input (s : FullAdder) (position : Nat) (value : Bool) : Option FullAdder :=
  if position < 3 then some { s with input := Function.update s.input position value } else none

/-- `FullAdder::get_pin_output` with its bound assertion. -/
def FullAdder.get_pin_output (s : FullAdder) (position : Nat) : Option Bool :=
  if position < 2 then some (s.output position) else none

/-- `FullAdder::update_state`: fire half adder 0 on inputs (A, B), fire
half adder 1 on (sum of half adder 0, carry-in), OR the two carries, and
write output 0 = sum, output 1 = carry. -/
def FullAdder.update_state (s : FullAdder) : FullAdder :=
  let ha0 := HalfAdder.fire2 (s.half_adder 0) (s.input 0) (s.input 1)
  let ha1 := HalfAdder.fire2 (s.half_adder 1) (ha0.output 0) (s.input 2)
  let or_gate := operator_or (ha0.output 1) (ha1.output 1)
  { s with
    half_adder := Function.update (Function.update s.half_adder 0 ha0) 1 ha1,
    or_gate := or_gate,
    output := Function.update (Function.update s.output 0 (ha1.output 0)) 1 or_gate }

/-- The `Component` impl of `FullAdder` (pin counts `(3, 2)`). -/
def FullAdder.ops : CompOps FullAdder where
  pin_count _ := (3, 2)
  set_pin_input := FullAdder.set_pin_input
  get_pin_output := FullAdder.get_pin_output
  update_state := FullAdder.update_state

/-- `full_adder.fire(&vec![a, b, c])` as one total step (see
`FullAdder.ops_fire3`). -/
def FullAdder.fire3 (s : FullAdder) (a b c : Bool) : FullAdder :=
  FullAdder.update_state
    { s with input :=
        Function.update (Function.update (Function.update s.input 0 a) 1 b) 2 c }

theorem FullAdder.ops_fire3 (s : FullAdder) (a b c : Bool) :
    FullAdder.ops.fire s [a, b, c] = some (FullAdder.fire3 s a b c) := rfl

example : (FullAdder.fire3 FullAdder.mkDefault true true false).output 0 = false := by decide
example : (FullAdder.fire3 FullAdder.mkDefault true true false).output 1 = true := by decide
example : (FullAdder.fire3 FullAdder.mkDefault true false false).output 0 = true := by decide
example : (FullAdder.fire3 FullAdder.mkDefault true true true).output 0 = true := by decide
example : (FullAdder.fire3 FullAdder.mkDefault true true true).output 1 = true := by decide

/-- State of `adder::RippleCarryAdder`: `2*n_way+1` input wires,
`n_way` full adders and `n_way+1` output wires. -/
structure RippleCarryAdder where
  n_way : Nat
  input : Nat → Bool
  full_adders : Nat → FullAdder
  output : Nat → Bool

/-- Constructor `RippleCarryAdder::new`: every wire low, default full
adders. -/
def RippleCarryAdder.new (n_way : Nat) : RippleCarryAdder :=
  { n_way := n_way, input := fun _ => false,
    full_adders := fun _ => FullAdder.mkDefault, output := fun _ => false }

/-- `RippleCarryAdder::set_pin_input` with its bound assertion
(`2*n_way+1` input pins). -/
def RippleCarryAdder.set_pin_input (s : RippleCarryAdder) (position : Nat) (value : Bool) :
    Option RippleCarryAdder :=
  if position < 2 * s.n_way + 1 then
    some { s with input := Function.update s.input position value }
  else none

/-- `RippleCarryAdder::get_pin_output` with its bound assertion
(`n_way+1` output pins). -/
def RippleCarryAdder.get_pin_output (s : RippleCarryAdder) (position : Nat) : Option Bool :=
  if position < s.n_way + 1 then some (s.output position) else none

/-- One iteration of the `for i in 1..n_way` loop of
`RippleCarryAdder::update_state`, over the loop state
(full adders, output wires, cursor = (sum, carry) of the previous stage):
write the previous stage's sum to output `i-1`, fire full adder `i` on
(bit `i` of A, bit `i` of B, previous carry), and continue with that
adder's (sum, carry) pair as the new cursor. -/
def rcaStep (inp : Nat → Bool) (n : Nat)
    (st : (Nat → FullAdder) × (Nat → Bool) × (Bool × Bool)) (i : Nat) :
    (Nat → FullAdder) × (Nat → Bool) × (Bool × Bool) :=
  let out1 := Function.update st.2.1 (i - 1) st.2.2.1
  let fa := FullAdder.fire3 (st.1 i) (inp (1 + i)) (inp (1 + n + i)) st.2.2.2
  (Function.update st.1 i fa, out1, (fa.output 0, fa.output 1))

/-- `RippleCarryAdder::update_state`: fire full adder 0 on
(A bit 0 = pin 1, B bit 0 = pin `1+n_way`, carry-in = pin 0), run the
`for i in 1..n_way` loop (the index list `List.range' 1 (n_way - 1)`)
from that stage's (sum, carry) cursor, then write the last sum to output
`n_way-1` and the last carry to output `n_way`. -/
def RippleCarryAdder.update_state (s : RippleCarryAdder) : RippleCarryAdder :=
  let fa0 := FullAdder.fire3 (s.full_adders 0)
    (s.input 1) (s.input (1 + s.n_way)) (s.input 0)
  let r := (List.range' 1 (s.n_way - 1)).foldl (rcaStep s.input s.n_way)
    (Function.update s.full_adders 0 fa0, s.output, (fa0.output 0, fa0.output 1))
  { s with
    full_adders := r.1,
    output := Function.update (Function.update r.2.1 (s.n_way - 1) r.2.2.1)
      s.n_way r.2.2.2 }

/-- The `Component` impl of `RippleCarryAdder` (pin counts
`(2*n_way+1, n_way+1)`). -/
def RippleCarryAdder.ops : CompOps RippleCarryAdder where
  pin_count s := (2 * s.n_way + 1, s.n_way + 1)
  set_pin_input := RippleCarryAdder.set_pin_input
  get_pin_output := RippleCarryAdder.get_pin_output
  update_state := RippleCarryAdder.update_state

/-- State of `encoder::Encoder2_1`: two input wires, one output wire. -/
structure Encoder2_1 where
  input : Nat → Bool
  output : Nat → Bool

/-- `Encoder2_1::set_pin_input` with its bound assertion. -/
def Encoder2_1.set_pin_input (s : Encoder2_1) (position : Nat) (value : Bool) :
    Option Encoder2_1 :=
  if position < 2 then some { s with input := Function.update s.input position value }
  else none

/-- `Encoder2_1::get_pin_output` with its bound assertion. -/
def Encoder2_1.get_pin_output (s : Encoder2_1) (position : Nat) : Option Bool :=
  if position < 1 then some (s.output position) else none

/-- `Encoder2_1::update_state`: output 0 is wired to input 1. -/
def Encoder2_1.update_state (s : Encoder2_1) : Encoder2_1 :=
  { s with output := Function.update s.output 0 (s.input 1) }

/-- The `Component` impl of `Encoder2_1` (pin counts `(2, 1)`). -/
def Encoder2_1.ops : CompOps Encoder2_1 where
  pin_count _ := (2, 1)
  set_pin_input := Encoder2_1.set_pin_input
  get_pin_output := Encoder2_1.get_pin_output
  update_state := Encoder2_1.update_state

/-- State of `encoder::Encoder4_2`: four input wires, two output wires and
the wires of its two OR gates. -/
structure Encoder4_2 where
  input : Nat → Bool
  output : Nat → Bool
  or_gates : Nat → Bool

/-- `Encoder4_2::set_pin_input` with its bound assertion. -/
def Encoder4_2.set_pin_input (s : Encoder4_2) (position : Nat) (value : Bool) :
    Option Encoder4_2 :=
  if position < 4 then some { s with input := Function.update s.input position value }
  else none

/-- `Encoder4_2::get_pin_output` with its bound assertion. -/
def Encoder4_2.get_pin_output (s : Encoder4_2) (position : Nat) : Option Bool :=
  if position < 2 then some (s.output position) else none

/-- `Encoder4_2::update_state`: OR gate 0 gets (I3, I1), OR gate 1 gets
(I3, I2), and the outputs copy the gate wires. -/
def Encoder4_2.update_state (s : Encoder4_2) : Encoder4_2 :=
  let og0 := operator_or (s.input 3) (s.input 1)
  let og1 := operator_or (s.input 3) (s.input 2)
  { s with
    or_gates := Function.update (Function.update s.or_gates 0 og0) 1 og1,
    output := Function.update (Function.update s.output 0 og0) 1 og1 }

/-- The `Component` impl of `Encoder4_2` (pin counts `(4, 2)`). -/
def Encoder4_2.ops : CompOps Encoder4_2 where
  pin_count _ := (4, 2)
  set_pin_input := Encoder4_2.set_pin_input
  get_pin_output := Encoder4_2.get_pin_output
  update_state := Encoder4_2.update_state

/-- State of `big_gates::ORGate3`: three input wires, two chained OR gate
wires, one output wire. -/
structure ORGate3 where
  input : Nat → Bool
  or_gate : Nat → Bool
  output : Bool

/-- Rust `ORGate3::default()`: every wire low. -/
def ORGate3.mkDefault : ORGate3 :=
  { input := fun _ => false, or_gate := fun _ => false, output := false }

/-- `ORGate3::set_pin_input` with its bound assertion. -/
def ORGate3.set_pin_input (s : ORGate3) (position : Nat) (value : Bool) : Option ORGate3 :=
  if position < 3 then some { s with input := Function.update s.input position value }
  else none

/-- `ORGate3::get_pin_output` with its bound assertion (one output pin). -/
def ORGate3.get_pin_output (s : ORGate3) (position : Nat) : Option Bool :=
  if position < 1 then some s.output else none

/-- `ORGate3::update_state`: chain the two OR gates and copy the second
one to the output wire. -/
def ORGate3.update_state (s : ORGate3) : ORGate3 :=
  let g0 := operator_or (s.input 0) (s.input 1)
  let g1 := operator_or g0 (s.input 2)
  { s with
    or_gate := Function.update (Function.update s.or_gate 0 g0) 1 g1,
    output := g1 }

/-- The `Component` impl of `ORGate3` (pin counts `(3, 1)`). -/
def ORGate3.ops : CompOps ORGate3 where
  pin_count _ := (3, 1)
  set_pin_input := ORGate3.set_pin_input
  get_pin_output := ORGate3.get_pin_output
  update_state := ORGate3.update_state

/-- `big_or.input(&vec![a, b, c])` — the trait-default batch input of
`ORGate3`, which only stores the three input wires and does NOT run
`ORGate3::update_state` (see `ORGate3.ops_input3`). -/
def ORGate3.input3 (s : ORGate3) (a b c : Bool) : ORGate3 :=
  { s with input :=
      Function.update (Function.update (Function.update s.input 0 a) 1 b) 2 c }

theorem ORGate3.ops_input3 (s : ORGate3) (a b c : Bool) :
    ORGate3.ops.inputBatch s [a, b, c] = some (ORGate3.input3 s a b c) := rfl

/-- State of `encoder::PriorityEncoder4_2`: four input wires, three output
wires, the wires of its OR/AND/NOT gates, and its 3-way big OR component. -/
structure PriorityEncoder4_2 where
  input : Nat → Bool
  output : Nat → Bool
  or_gate_1 : Bool
  or_gate_2 : Bool
  and_gate : Bool
  not_gate : Bool
  big_or : ORGate3

/-- Rust `PriorityEncoder4_2::default()`: every wire low. -/
def PriorityEncoder4_2.mkDefault : PriorityEncoder4_2 :=
  { input := fun _ => false, output := fun _ => false, or_gate_1 := false,
    or_gate_2 := false, and_gate := false, not_gate := false,
    big_or := ORGate3.mkDefault }

/-- `PriorityEncoder4_2::set_pin_input` with its bound assertion. -/
def PriorityEncoder4_2.set_pin_input (s : PriorityEncoder4_2) (position : Nat) (value : Bool) :
    Option PriorityEncoder4_2 :=
  if position < 4 then some { s with input := Function.update s.input position value }
  else none

/-- `PriorityEncoder4_2::get_pin_output` with its bound assertion. -/
def PriorityEncoder4_2.get_pin_output (s : PriorityEncoder4_2) (position : Nat) : Option Bool :=
  if position < 3 then some (s.output position) else none

/-- `PriorityEncoder4_2::update_state`, exactly as in the source: output 1
gets I3 OR I2; output 0 gets I3 OR (I1 AND NOT I2); the big OR component
receives batch INPUT ONLY — its own `update_state` is never invoked — and
output 2 (the valid flag) copies the big OR's stale output wire. -/
def PriorityEncoder4_2.update_state (s : PriorityEncoder4_2) : PriorityEncoder4_2 :=
  let or_gate_1 := operator_or (s.input 3) (s.input 2)
  let o1 := or_gate_1
  let not_gate := operator_not (s.input 2)
  let and_gate := operator_and (s.input 1) not_gate
  let or_gate_2 := operator_or (s.input 3) and_gate
  let o0 := or_gate_2
  let big_or := ORGate3.input3 s.big_or o1 (s.input 0) (s.input 1)
  { s with
    or_gate_1 := or_gate_1,
    not_gate := not_gate,
    and_gate := and_gate,
    or_gate_2 := or_gate_2,
    big_or := big_or,
    output := Function.update
      (Function.update (Function.update s.output 1 o1) 0 o0) 2 big_or.output }

/-- The `Component` impl of `PriorityEncoder4_2` (pin counts `(4, 3)`). -/
def PriorityEncoder4_2.ops : CompOps PriorityEncoder4_2 where
  pin_count _ := (4, 3)
  set_pin_input := PriorityEncoder4_2.set_pin_input
  get_pin_output := PriorityEncoder4_2.get_pin_output
  update_state := PriorityEncoder4_2.update_state

example : (RippleCarryAdder.ops.fire (RippleCarryAdder.new 2)
    [false, true, true, true, false]).map RippleCarryAdder.ops.outputs
    = some [false, false, true] := by decide

example : (RippleCarryAdder.ops.fire (RippleCarryAdder.new 2)
    [true, true, true, true, true]).map RippleCarryAdder.ops.outputs
    = some [true, true, true] := by decide

example : (RippleCarryAdder.ops.fire (RippleCarryAdder.new 2)
    [true, true, false, false, true]).map RippleCarryAdder.ops.outputs
    = some [false, false, true] := by decide

example : (PriorityEncoder4_2.ops.fire PriorityEncoder4_2.mkDefault
    [false, false, false, true]).map PriorityEncoder4_2.ops.outputs
    = some [true, true, false] := by decide

/-- Rust `Encoder4_2::default()`: every wire low. -/
def Encoder4_2.mkDefault : Encoder4_2 :=
  { input := fun _ => false, output := fun _ => false, or_gates := fun _ => false }

example : (Encoder4_2.ops.fire Encoder4_2.mkDefault [false, false, true, false]).map
    Encoder4_2.ops.outputs = some [false, true] := by decide

/-- Little-endian numeric value of a bit list (bit 0 first). -/
def listToNat : List Bool → Nat
  | [] => 0
  | b :: t => (if b then 1 else 0) + 2 * listToNat t

/-- Functional specification of a ripple-carry chain: the sum bits of the
two equal-length little-endian operands under the given carry-in, followed
by the final carry-out, with each stage computed by the full-adder
formulas of the circuit. -/
def addBits : List Bool → List Bool → Bool → List Bool
  | a :: as, b :: bs, c =>
      operator_xor (operator_xor a b) c ::
        addBits as bs (operator_or (operator_and a b) (operator_and (operator_xor a b) c))
  | _, _, c => [c]

theorem addBits_length : ∀ (as bs : List Bool) (c : Bool), as.length = bs.length →
    (addBits as bs c).length = as.length + 1 := by
  intro as
  induction as with
  | nil =>
    intro bs c h
    cases bs with
    | nil => simp [addBits]
    | cons b bs => simp at h
  | cons a as ih =>
    intro bs c h
    cases bs with
    | nil => simp at h
    | cons b bs => simp only [addBits, List.length_cons] at h ⊢; rw [ih bs _ (by omega)]

theorem listToNat_addBits : ∀ (as bs : List Bool) (c : Bool), as.length = bs.length →
    listToNat (addBits as bs c)
      = listToNat as + listToNat bs + (if c then 1 else 0) := by
  intro as
  induction as with
  | nil =>
    intro bs c h
    cases bs with
    | nil => cases c <;> simp [addBits, listToNat]
    | cons b bs => simp at h
  | cons a as ih =>
    intro bs c h
    cases bs with
    | nil => simp at h
    | cons b bs =>
      simp only [addBits, listToNat]
      rw [ih bs _ (by simp at h; omega)]
      cases a <;> cases b <;> cases c <;>
        simp [operator_xor, operator_and, operator_or, listToNat] <;> ring

theorem testBit_listToNat : ∀ (l : List Bool) (j : Nat),
    (listToNat l).testBit j = l.getD j false := by
  intro l
  induction l with
  | nil => intro j; simp [listToNat, Nat.zero_testBit, List.getD]
  | cons b t ih =>
    intro j
    cases j with
    | zero =>
      simp only [listToNat, Nat.testBit_zero, List.getD_cons_zero]
      cases b <;> simp [Nat.add_mul_mod_self_left]
    | succ j =>
      rw [Nat.testBit_add_one]
      simp only [listToNat, List.getD_cons_succ]
      rw [← ih j]
      congr 1
      cases b
      · simp
      · simp
        omega

theorem FullAdder.fire3_output_zero (s : FullAdder) (a b c : Bool) :
    (FullAdder.fire3 s a b c).output 0 = operator_xor (operator_xor a b) c := by
  simp [FullAdder.fire3, FullAdder.update_state, HalfAdder.fire2, HalfAdder.update_state,
    Function.update]

theorem FullAdder.fire3_output_one (s : FullAdder) (a b c : Bool) :
    (FullAdder.fire3 s a b c).output 1
      = operator_or (operator_and a b) (operator_and (operator_xor a b) c) := by
  simp [FullAdder.fire3, FullAdder.update_state, HalfAdder.fire2, HalfAdder.update_state,
    Function.update]

theorem drop_eq_getD_cons {α : Type} {l : List α} {i : Nat} (h : i < l.length) (d : α) :
    l.drop i = l.getD i d :: l.drop (i + 1) := by
  rw [List.drop_eq_getElem_cons h]
  congr 1
  simp [List.getElem?_eq_getElem h]


theorem rca_foldl_spec :
    ∀ (k i : Nat) (inp : Nat → Bool) (n : Nat) (as bs : List Bool)
      (fas : Nat → FullAdder) (out : Nat → Bool) (sb c : Bool),
      as.length = n → bs.length = n →
      (∀ t, t < n → inp (1 + t) = as.getD t false) →
      (∀ t, t < n → inp (1 + n + t) = bs.getD t false) →
      1 ≤ i → i + k = n →
      (∀ j, ((List.range' i k).foldl (rcaStep inp n) (fas, out, (sb, c))).2.1 j
          = if i - 1 ≤ j ∧ j < n - 1
            then (sb :: addBits (as.drop i) (bs.drop i) c).getD (j - (i - 1)) false
            else out j)
      ∧ ((List.range' i k).foldl (rcaStep inp n) (fas, out, (sb, c))).2.2
          = ((sb :: addBits (as.drop i) (bs.drop i) c).getD (n - i) false,
             (sb :: addBits (as.drop i) (bs.drop i) c).getD (n - i + 1) false) := by
  intro k
  induction k with
  | zero =>
    intro i inp n as bs fas out sb c ha hb _ _ h1 hik
    have hin : i = n := by omega
    subst hin
    have hda : as.drop i = [] := by rw [← ha]; exact List.drop_length as
    have hdb : bs.drop i = [] := by rw [← hb]; exact List.drop_length bs
    constructor
    · intro j
      simp only [List.range'_zero, List.foldl_nil]
      rw [if_neg (by omega)]
    · simp only [List.range'_zero, List.foldl_nil]
      rw [hda, hdb, Nat.sub_self]
      rfl
  | succ k ih =>
    intro i inp n as bs fas out sb c ha hb hA hB h1 hik
    have hilt : i < n := by omega
    rw [List.range'_succ, List.foldl_cons]
    have hstep : rcaStep inp n (fas, out, (sb, c)) i
        = (Function.update fas i
            (FullAdder.fire3 (fas i) (inp (1 + i)) (inp (1 + n + i)) c),
           Function.update out (i - 1) sb,
           ((FullAdder.fire3 (fas i) (inp (1 + i)) (inp (1 + n + i)) c).output 0,
            (FullAdder.fire3 (fas i) (inp (1 + i)) (inp (1 + n + i)) c).output 1)) := rfl
    rw [hstep]
    rw [hA i hilt, hB i hilt, FullAdder.fire3_output_zero, FullAdder.fire3_output_one]
    have haddb : addBits (as.drop i) (bs.drop i) c
        = operator_xor (operator_xor (as.getD i false) (bs.getD i false)) c ::
            addBits (as.drop (i + 1)) (bs.drop (i + 1))
              (operator_or (operator_and (as.getD i false) (bs.getD i false))
                (operator_and (operator_xor (as.getD i false) (bs.getD i false)) c)) := by
      rw [drop_eq_getD_cons (l := as) (i := i) (by omega) false,
        drop_eq_getD_cons (l := bs) (i := i) (by omega) false, addBits]
    obtain ⟨ihout, ihcur⟩ := ih (i + 1) inp n as bs
      (Function.update fas i
        (FullAdder.fire3 (fas i) (as.getD i false) (bs.getD i false) c))
      (Function.update out (i - 1) sb)
      (operator_xor (operator_xor (as.getD i false) (bs.getD i false)) c)
      (operator_or (operator_and (as.getD i false) (bs.getD i false))
        (operator_and (operator_xor (as.getD i false) (bs.getD i false)) c))
      ha hb hA hB (by omega) (by omega)
    constructor
    · intro j
      rw [ihout j, haddb]
      simp only [Nat.add_sub_cancel]
      by_cases hj1 : i ≤ j ∧ j < n - 1
      · rw [if_pos hj1, if_pos (by omega)]
        have hidx : j - (i - 1) = (j - i) + 1 := by omega
        rw [hidx, List.getD_cons_succ]
      · by_cases hj2 : j = i - 1 ∧ j < n - 1
        · rw [if_neg (by omega), if_pos (by omega)]
          have hidx : j - (i - 1) = 0 := by omega
          rw [hidx, List.getD_cons_zero, Function.update_apply, if_pos (by omega)]
        · rw [if_neg (by omega), if_neg (by omega), Function.update_apply,
            if_neg (by omega)]
    · rw [ihcur, haddb]
      have h2 : n - i = (n - (i + 1)) + 1 := by omega
      rw [h2]
      simp only [List.getD_cons_succ]

theorem rca_update_output (s : RippleCarryAdder) (as bs : List Bool)
    (h1 : 1 ≤ s.n_way) (ha : as.length = s.n_way) (hb : bs.length = s.n_way)
    (hA : ∀ t, t < s.n_way → s.input (1 + t) = as.getD t false)
    (hB : ∀ t, t < s.n_way → s.input (1 + s.n_way + t) = bs.getD t false) :
    ∀ j, j ≤ s.n_way →
      s.update_state.output j = (addBits as bs (s.input 0)).getD j false := by
  cases as with
  | nil => intro j hj; exfalso; rw [List.length_nil] at ha; omega
  | cons a as1 =>
  cases bs with
  | nil => intro j hj; exfalso; rw [List.length_nil] at hb; omega
  | cons b bs1 =>
  intro j hj
  have e1 : s.input 1 = a := by have h := hA 0 (by omega); simpa using h
  have e2 : s.input (1 + s.n_way) = b := by have h := hB 0 (by omega); simpa using h
  have hF : addBits (a :: as1) (b :: bs1) (s.input 0)
      = (FullAdder.fire3 (s.full_adders 0) (s.input 1) (s.input (1 + s.n_way))
          (s.input 0)).output 0 ::
        addBits as1 bs1
          ((FullAdder.fire3 (s.full_adders 0) (s.input 1) (s.input (1 + s.n_way))
            (s.input 0)).output 1) := by
    rw [FullAdder.fire3_output_zero, FullAdder.fire3_output_one, e1, e2, addBits]
  obtain ⟨lout, lcur⟩ := rca_foldl_spec (s.n_way - 1) 1 s.input s.n_way (a :: as1) (b :: bs1)
    (Function.update s.full_adders 0
      (FullAdder.fire3 (s.full_adders 0) (s.input 1) (s.input (1 + s.n_way)) (s.input 0)))
    s.output
    ((FullAdder.fire3 (s.full_adders 0) (s.input 1) (s.input (1 + s.n_way))
      (s.input 0)).output 0)
    ((FullAdder.fire3 (s.full_adders 0) (s.input 1) (s.input (1 + s.n_way))
      (s.input 0)).output 1)
    ha hb hA hB (by omega) (by omega)
  simp only [List.drop_one, List.tail_cons] at lout lcur
  simp only [RippleCarryAdder.update_state]
  rw [hF]
  rcases Nat.lt_or_ge j (s.n_way - 1) with hjlt | hjge
  · rw [Function.update_apply, if_neg (by omega), Function.update_apply, if_neg (by omega)]
    rw [lout j, if_pos (by omega)]
    have hidx : j - (1 - 1) = j := by omega
    rw [hidx]
  · have hjc : j = s.n_way - 1 ∨ j = s.n_way := by omega
    rcases hjc with hj1 | hj1
    · rw [Function.update_apply, if_neg (by omega), Function.update_apply, if_pos (by omega)]
      rw [lcur]
      rw [hj1]
    · rw [Function.update_apply, if_pos (by omega)]
      rw [lcur]
      have hidx : s.n_way - 1 + 1 = s.n_way := by omega
      rw [hidx, hj1]

theorem getD_append_left {α : Type} :
    ∀ (l1 l2 : List α) (t : Nat) (d : α), t < l1.length →
      (l1 ++ l2).getD t d = l1.getD t d := by
  intro l1
  induction l1 with
  | nil => intro l2 t d h; simp at h
  | cons x l1 ih =>
    intro l2 t d h
    cases t with
    | zero => rfl
    | succ t =>
      simp only [List.cons_append, List.getD_cons_succ]
      exact ih l2 t d (by simpa using h)

theorem getD_append_right_off {α : Type} :
    ∀ (l1 l2 : List α) (t : Nat) (d : α),
      (l1 ++ l2).getD (l1.length + t) d = l2.getD t d := by
  intro l1
  induction l1 with
  | nil => intro l2 t d; simp
  | cons x l1 ih =>
    intro l2 t d
    have : (x :: l1).length + t = (l1.length + t) + 1 := by
      simp only [List.length_cons]; omega
    rw [this]
    simp only [List.cons_append, List.getD_cons_succ]
    exact ih l2 t d

theorem RippleCarryAdder.update_state_n_way (s : RippleCarryAdder) :
    s.update_state.n_way = s.n_way := rfl

theorem RippleCarryAdder.update_state_input (s : RippleCarryAdder) :
    s.update_state.input = s.input := rfl

theorem rca_inputGo_spec :
    ∀ (vs : List Bool) (s : RippleCarryAdder) (i : Nat),
      i + vs.length ≤ 2 * s.n_way + 1 →
      ∃ s2, RippleCarryAdder.ops.inputGo s i vs = some s2
        ∧ s2.n_way = s.n_way
        ∧ s2.full_adders = s.full_adders
        ∧ s2.output = s.output
        ∧ (∀ j, s2.input j
            = if i ≤ j ∧ j < i + vs.length then vs.getD (j - i) false else s.input j) := by
  intro vs
  induction vs with
  | nil =>
    intro s i _
    refine ⟨s, rfl, rfl, rfl, rfl, fun j => ?_⟩
    rw [if_neg (by simp only [List.length_nil]; omega)]
  | cons v rest ih =>
    intro s i hle
    have hi : i < 2 * s.n_way + 1 := by
      have := List.length_cons v rest
      omega
    have hset : RippleCarryAdder.ops.set_pin_input s i v
        = some { s with input := Function.update s.input i v } := by
      show RippleCarryAdder.set_pin_input s i v = _
      rw [RippleCarryAdder.set_pin_input, if_pos hi]
    obtain ⟨s2, hgo, hnw, hfa, hout, hin⟩ :=
      ih { s with input := Function.update s.input i v } (i + 1) (by
        simp only [List.length_cons] at hle
        show i + 1 + rest.length ≤ 2 * s.n_way + 1
        omega)
    refine ⟨s2, ?_, hnw, hfa, hout, fun j => ?_⟩
    · show (RippleCarryAdder.ops.set_pin_input s i v).bind _ = some s2
      rw [hset]
      exact hgo
    · rw [hin j]
      by_cases hj0 : j = i
      · subst hj0
        rw [if_neg (by omega), if_pos (by simp only [List.length_cons]; omega)]
        simp [Function.update_apply, Nat.sub_self]
      · by_cases hj1 : i + 1 ≤ j ∧ j < i + 1 + rest.length
        · rw [if_pos hj1, if_pos (by simp only [List.length_cons]; omega)]
          have hidx : j - i = (j - (i + 1)) + 1 := by omega
          rw [hidx, List.getD_cons_succ]
        · rw [if_neg hj1, if_neg (by simp only [List.length_cons]; omega)]
          simp [Function.update_apply, hj0]

/-- C1: for every `n ≥ 1`, all `n`-bit operands A, B and carry-in `cin`,
after `RippleCarryAdder(n)` is fired with input pin 0 = `cin`, pins
`1..n` = the little-endian bits of A and pins `n+1..2n` = the little-endian
bits of B, output pins `0..n-1` hold the little-endian bits of
`(A + B + cin) mod 2^n` and output pin `n` holds bit `n` of `A + B + cin`
(the final carry-out). -/
theorem rca_fire_correct (n : Nat) (as bs : List Bool) (cin : Bool)
    (s s1 : RippleCarryAdder)
    (hn : s.n_way = n) (h1 : 1 ≤ n) (ha : as.length = n) (hb : bs.length = n)
    (hfire : RippleCarryAdder.ops.fire s (cin :: (as ++ bs)) = some s1) :
    (∀ j, j < n → RippleCarryAdder.ops.get_pin_output s1 j
        = some (Nat.testBit
            ((listToNat as + listToNat bs + (if cin then 1 else 0)) % 2 ^ n) j))
    ∧ RippleCarryAdder.ops.get_pin_output s1 n
        = some (Nat.testBit (listToNat as + listToNat bs + (if cin then 1 else 0)) n) := by
  have hlen : (cin :: (as ++ bs)).length = 2 * n + 1 := by
    simp only [List.length_cons, List.length_append, ha, hb]
    omega
  rw [CompOps.fire, CompOps.inputBatch] at hfire
  rw [if_pos (by
    show (cin :: (as ++ bs)).length ≤ 2 * s.n_way + 1
    rw [hlen, hn])] at hfire
  obtain ⟨s2, hgo, hnw, _, _, hin⟩ := rca_inputGo_spec (cin :: (as ++ bs)) s 0 (by
    show 0 + (cin :: (as ++ bs)).length ≤ 2 * s.n_way + 1
    rw [hlen, hn]
    omega)
  rw [hgo] at hfire
  have hnn : s2.n_way = n := by rw [hnw, hn]
  have hs1 : s1 = s2.update_state := by
    have h := hfire
    simp only [Option.map_some] at h
    exact (Option.some.inj h).symm
  have h0 : s2.input 0 = cin := by
    rw [hin 0, if_pos (by simp only [hlen]; omega)]
    simp
  have hA2 : ∀ t, t < s2.n_way → s2.input (1 + t) = as.getD t false := by
    intro t ht
    rw [hnn] at ht
    rw [hin (1 + t), if_pos (by simp only [hlen]; omega)]
    have hidx : 1 + t - 0 = t + 1 := by omega
    rw [hidx, List.getD_cons_succ]
    exact getD_append_left as bs t false (by omega)
  have hB2 : ∀ t, t < s2.n_way → s2.input (1 + s2.n_way + t) = bs.getD t false := by
    intro t ht
    rw [hnn] at ht
    rw [hin (1 + s2.n_way + t), if_pos (by simp only [hlen]; omega)]
    have hidx : 1 + s2.n_way + t - 0 = (as.length + t) + 1 := by omega
    rw [hidx, List.getD_cons_succ]
    exact getD_append_right_off as bs t false
  have houts := rca_update_output s2 as bs (by omega)
    (by rw [ha]; exact hnn.symm) (by rw [hb]; exact hnn.symm) hA2 hB2
  rw [h0] at houts
  have hs1n : s1.n_way = n := by
    rw [hs1, RippleCarryAdder.update_state_n_way, hnn]
  have hgetd : ∀ j, j ≤ n → (addBits as bs cin).getD j false
      = Nat.testBit (listToNat as + listToNat bs + (if cin then 1 else 0)) j := by
    intro j _
    rw [← listToNat_addBits as bs cin (by omega), testBit_listToNat]
  constructor
  · intro j hj
    show RippleCarryAdder.get_pin_output s1 j = _
    rw [RippleCarryAdder.get_pin_output, if_pos (by omega)]
    rw [hs1, houts j (by omega), Nat.testBit_mod_two_pow]
    rw [hgetd j (by omega)]
    simp [hj]
  · show RippleCarryAdder.get_pin_output s1 n = _
    rw [RippleCarryAdder.get_pin_output, if_pos (by omega)]
    rw [hs1, houts n (by omega), hgetd n (by omega)]

/-- The fired 2-bit adder of the C1 witness. -/
def c1wit : RippleCarryAdder :=
  (RippleCarryAdder.ops.fire (RippleCarryAdder.new 2)
    [false, true, true, false, true]).getD (RippleCarryAdder.new 2)

/-- Witness for C1 at n = 2, A = 3, B = 2, cin = 0 (so A + B + cin = 5). -/
theorem rca_fire_correct_witness :
    (RippleCarryAdder.new 2).n_way = 2
    ∧ RippleCarryAdder.ops.fire (RippleCarryAdder.new 2) [false, true, true, false, true]
        = some c1wit
    ∧ ((∀ j, j < 2 → RippleCarryAdder.ops.get_pin_output c1wit j
          = some (Nat.testBit ((listToNat [true, true] + listToNat [false, true]
              + (if false then 1 else 0)) % 2 ^ 2) j))
        ∧ RippleCarryAdder.ops.get_pin_output c1wit 2
          = some (Nat.testBit (listToNat [true, true] + listToNat [false, true]
              + (if false then 1 else 0)) 2)) :=
  ⟨rfl, rfl, rca_fire_correct 2 [true, true] [false, true] false
    (RippleCarryAdder.new 2) c1wit rfl (by decide) rfl rfl rfl⟩

/-- C5: after `FullAdder` is fired with input pins `(a, b, cin)`, output
pin 0 holds bit 0 (the sum) and output pin 1 holds bit 1 (the carry-out)
of `a + b + cin`; equivalently the sum is `a XOR b XOR cin` and the
carry-out is the majority of `a`, `b`, `cin`. -/
theorem full_adder_fire_correct (s s1 : FullAdder) (a b cin : Bool)
    (hfire : FullAdder.ops.fire s [a, b, cin] = some s1) :
    FullAdder.ops.get_pin_output s1 0
      = some (Nat.testBit ((if a then 1 else 0) + (if b then 1 else 0)
          + (if cin then 1 else 0)) 0)
    ∧ FullAdder.ops.get_pin_output s1 1
      = some (Nat.testBit ((if a then 1 else 0) + (if b then 1 else 0)
          + (if cin then 1 else 0)) 1)
    ∧ s1.output 0 = operator_xor a (operator_xor b cin)
    ∧ s1.output 1 = (a && b || a && cin || b && cin) := by
  have hs1 : s1 = FullAdder.fire3 s a b cin := by
    rw [FullAdder.ops_fire3] at hfire
    exact (Option.some.inj hfire).symm
  subst hs1
  refine ⟨?_, ?_, ?_, ?_⟩
  · show FullAdder.get_pin_output _ 0 = _
    rw [FullAdder.get_pin_output, if_pos (by omega), FullAdder.fire3_output_zero]
    cases a <;> cases b <;> cases cin <;> decide
  · show FullAdder.get_pin_output _ 1 = _
    rw [FullAdder.get_pin_output, if_pos (by omega), FullAdder.fire3_output_one]
    cases a <;> cases b <;> cases cin <;> decide
  · rw [FullAdder.fire3_output_zero]
    cases a <;> cases b <;> cases cin <;> decide
  · rw [FullAdder.fire3_output_one]
    cases a <;> cases b <;> cases cin <;> decide

/-- The fired full adder of the C5 witness. -/
def c5wit : FullAdder :=
  (FullAdder.ops.fire FullAdder.mkDefault [true, true, true]).getD FullAdder.mkDefault

/-- Witness for C5 at (a, b, cin) = (1, 1, 1). -/
theorem full_adder_fire_correct_witness :
    FullAdder.ops.fire FullAdder.mkDefault [true, true, true] = some c5wit
    ∧ (FullAdder.ops.get_pin_output c5wit 0
        = some (Nat.testBit ((if true then 1 else 0) + (if true then 1 else 0)
            + (if true then 1 else 0)) 0)
      ∧ FullAdder.ops.get_pin_output c5wit 1
        = some (Nat.testBit ((if true then 1 else 0) + (if true then 1 else 0)
            + (if true then 1 else 0)) 1)
      ∧ c5wit.output 0 = operator_xor true (operator_xor true true)
      ∧ c5wit.output 1 = (true && true || true && true || true && true)) :=
  ⟨rfl, full_adder_fire_correct FullAdder.mkDefault c5wit true true true rfl⟩

/-- C6: `get_data e` returns the stored sequence unchanged when `e` equals
the stored endianness and the reversed sequence otherwise; the result
always has the same length and the same multiset of bits as the stored
data, and the opposite-endianness conversion is an involution. -/
theorem potentials_get_data_spec (p : Potentials) (e : Bool) :
    (p.get_data e = if e = p.little_endian then p.data else p.data.reverse)
    ∧ (p.get_data e).length = p.data.length
    ∧ (p.get_data e).Perm p.data
    ∧ p.get_data p.little_endian = p.data
    ∧ p.get_data (!p.little_endian) = p.data.reverse
    ∧ (p.get_data (!p.little_endian)).reverse = p.data := by
  obtain ⟨d, le⟩ := p
  cases le <;> cases e <;>
    simp [Potentials.get_data, List.reverse_perm]

/-- C4 (code bug): `PriorityEncoder4_2::update_state` writes the valid
flag (output pin 2) from the big OR's output wire after only batch-setting
the big OR's inputs, never firing it; the valid flag therefore holds the
stale wire value.  Fired from the default state with I3 = 1 the outputs
are (1, 1, 0) — correct code bits but valid flag low — contradicting the
component's own truth table (valid = 1 whenever some input is high). -/
theorem priority_encoder_valid_flag_stale :
    (PriorityEncoder4_2.ops.fire PriorityEncoder4_2.mkDefault
        [false, false, false, true]).map PriorityEncoder4_2.ops.outputs
      = some [true, true, false]
    ∧ (∀ s : PriorityEncoder4_2, s.update_state.output 2 = s.big_or.output) := by
  constructor
  · decide
  · intro s
    simp [PriorityEncoder4_2.update_state, ORGate3.input3, Function.update]

theorem encoder21_outputs_update (s : Encoder2_1) :
    Encoder2_1.ops.outputs s.update_state = [s.input 1] := rfl

theorem encoder42_outputs_update (s : Encoder4_2) :
    Encoder4_2.ops.outputs s.update_state
      = [operator_or (s.input 3) (s.input 1), operator_or (s.input 3) (s.input 2)] := rfl

/-- C10: input pin 0 never influences the outputs of the simple encoders:
two stored states of `Encoder2_1` (resp. `Encoder4_2`) that agree on every
input pin except pin 0 produce identical outputs from `update_state`;
concretely `Encoder2_1`'s output equals input pin 1 and `Encoder4_2`'s
outputs equal `(I1 OR I3, I2 OR I3)`, one-hot or not. -/
theorem encoders_ignore_input_zero :
    (∀ s t : Encoder2_1, s.input 1 = t.input 1 →
        Encoder2_1.ops.outputs s.update_state = Encoder2_1.ops.outputs t.update_state)
    ∧ (∀ s : Encoder2_1, Encoder2_1.ops.outputs s.update_state = [s.input 1])
    ∧ (∀ s t : Encoder4_2, s.input 1 = t.input 1 → s.input 2 = t.input 2 →
        s.input 3 = t.input 3 →
        Encoder4_2.ops.outputs s.update_state = Encoder4_2.ops.outputs t.update_state)
    ∧ (∀ s : Encoder4_2, Encoder4_2.ops.outputs s.update_state
        = [s.input 1 || s.input 3, s.input 2 || s.input 3]) := by
  refine ⟨?_, encoder21_outputs_update, ?_, ?_⟩
  · intro s t h
    rw [encoder21_outputs_update, encoder21_outputs_update, h]
  · intro s t h1 h2 h3
    rw [encoder42_outputs_update, encoder42_outputs_update, h1, h2, h3]
  · intro s
    rw [encoder42_outputs_update]
    simp [operator_or, Bool.or_comm]

/-- First state of the C10 witness: every input pin high. -/
def c10a : Encoder2_1 := { input := fun _ => true, output := fun _ => false }

/-- Second state of the C10 witness: like `c10a` but input pin 0 low. -/
def c10b : Encoder2_1 :=
  { input := fun j => if j = 0 then false else true, output := fun _ => false }

/-- Third state of the C10 witness: every input pin high. -/
def c10c : Encoder4_2 :=
  { input := fun _ => true, output := fun _ => false, or_gates := fun _ => false }

/-- Fourth state of the C10 witness: like `c10c` but input pin 0 low. -/
def c10d : Encoder4_2 :=
  { input := fun j => if j = 0 then false else true, output := fun _ => false,
    or_gates := fun _ => false }

/-- Witness for C10 on states that differ exactly at input pin 0. -/
theorem encoders_ignore_input_zero_witness :
    (c10a.input 1 = c10b.input 1
      ∧ Encoder2_1.ops.outputs c10a.update_state = Encoder2_1.ops.outputs c10b.update_state)
    ∧ (c10c.input 1 = c10d.input 1 ∧ c10c.input 2 = c10d.input 2
      ∧ c10c.input 3 = c10d.input 3
      ∧ Encoder4_2.ops.outputs c10c.update_state
          = Encoder4_2.ops.outputs c10d.update_state) :=
  ⟨⟨rfl, encoders_ignore_input_zero.1 c10a c10b rfl⟩,
   ⟨rfl, rfl, rfl, encoders_ignore_input_zero.2.2.1 c10c c10d rfl rfl rfl⟩⟩

theorem getD_range_map (f : Nat → Bool) (n t : Nat) (h : t < n) :
    ((List.range n).map f).getD t false = f t := by
  rw [List.getD_eq_getElem?_getD, List.getElem?_map, List.getElem?_range h]
  rfl

theorem rca_outputs_pure (s t : RippleCarryAdder) (hn : s.n_way = t.n_way)
    (h1 : 1 ≤ s.n_way) (hin : ∀ j, s.input j = t.input j) :
    RippleCarryAdder.ops.outputs s.update_state
      = RippleCarryAdder.ops.outputs t.update_state := by
  have houts := rca_update_output s
    ((List.range s.n_way).map fun i => s.input (1 + i))
    ((List.range s.n_way).map fun i => s.input (1 + s.n_way + i))
    h1 (by simp) (by simp)
    (fun u hu => (getD_range_map (fun i => s.input (1 + i)) s.n_way u hu).symm)
    (fun u hu =>
      (getD_range_map (fun i => s.input (1 + s.n_way + i)) s.n_way u hu).symm)
  have houtt := rca_update_output t
    ((List.range s.n_way).map fun i => s.input (1 + i))
    ((List.range s.n_way).map fun i => s.input (1 + s.n_way + i))
    (by omega) (by simp [hn]) (by simp [hn])
    (fun u hu => by
      rw [← hin (1 + u), getD_range_map _ _ _ (by omega)])
    (fun u hu => by
      rw [← hn, ← hin (1 + s.n_way + u), getD_range_map _ _ _ (by omega)])
  show (List.range (RippleCarryAdder.ops.pin_count s.update_state).2).map _
      = (List.range (RippleCarryAdder.ops.pin_count t.update_state).2).map _
  have hpc : (RippleCarryAdder.ops.pin_count s.update_state).2
      = (RippleCarryAdder.ops.pin_count t.update_state).2 := by
    show s.update_state.n_way + 1 = t.update_state.n_way + 1
    rw [RippleCarryAdder.update_state_n_way, RippleCarryAdder.update_state_n_way, hn]
  rw [← hpc]
  refine List.map_congr_left fun i hi => ?_
  rw [List.mem_range] at hi
  have hi2 : i ≤ s.n_way := by
    have : (RippleCarryAdder.ops.pin_count s.update_state).2 = s.n_way + 1 := rfl
    omega
  show (RippleCarryAdder.get_pin_output s.update_state i).getD false
      = (RippleCarryAdder.get_pin_output t.update_state i).getD false
  rw [RippleCarryAdder.get_pin_output, RippleCarryAdder.get_pin_output,
    if_pos (by rw [RippleCarryAdder.update_state_n_way]; omega),
    if_pos (by rw [RippleCarryAdder.update_state_n_way]; omega)]
  rw [Option.getD_some, Option.getD_some, houts i hi2, houtt i (by omega),
    hin 0]

theorem halfAdder_outputs_update (s : HalfAdder) :
    HalfAdder.ops.outputs s.update_state
      = [operator_xor (s.input 0) (s.input 1), operator_and (s.input 0) (s.input 1)] := rfl

theorem halfAdder_update_state_in (s : HalfAdder) : s.update_state.input = s.input := rfl

theorem fullAdder_outputs_update (s : FullAdder) :
    FullAdder.ops.outputs s.update_state
      = [operator_xor (operator_xor (s.input 0) (s.input 1)) (s.input 2),
         operator_or (operator_and (s.input 0) (s.input 1))
           (operator_and (operator_xor (s.input 0) (s.input 1)) (s.input 2))] := rfl

theorem fullAdder_update_state_in (s : FullAdder) : s.update_state.input = s.input := rfl

theorem encoder21_update_state_in (s : Encoder2_1) : s.update_state.input = s.input := rfl

theorem encoder42_update_state_in (s : Encoder4_2) : s.update_state.input = s.input := rfl

theorem Priorityencoder42_outputs_update (s : PriorityEncoder4_2) :
    PriorityEncoder4_2.ops.outputs s.update_state
      = [operator_or (s.input 3) (operator_and (s.input 1) (operator_not (s.input 2))),
         operator_or (s.input 3) (s.input 2),
         s.big_or.output] := rfl

theorem Priorityencoder42_update_state_in (s : PriorityEncoder4_2) :
    s.update_state.input = s.input := rfl

theorem PriorityEncoder4_2.update_state_big_or_out (s : PriorityEncoder4_2) :
    s.update_state.big_or.output = s.big_or.output := rfl

/-- C7: calling `update_state` twice in a row without changing any input
pin yields the same output-pin values after the second call as after the
first, for every modeled component state (for `RippleCarryAdder`, for
every width `n_way ≥ 1`). -/
theorem update_state_idempotent :
    (∀ s : HalfAdder, HalfAdder.ops.outputs s.update_state.update_state
        = HalfAdder.ops.outputs s.update_state)
    ∧ (∀ s : FullAdder, FullAdder.ops.outputs s.update_state.update_state
        = FullAdder.ops.outputs s.update_state)
    ∧ (∀ s : Encoder2_1, Encoder2_1.ops.outputs s.update_state.update_state
        = Encoder2_1.ops.outputs s.update_state)
    ∧ (∀ s : Encoder4_2, Encoder4_2.ops.outputs s.update_state.update_state
        = Encoder4_2.ops.outputs s.update_state)
    ∧ (∀ s : PriorityEncoder4_2,
        PriorityEncoder4_2.ops.outputs s.update_state.update_state
          = PriorityEncoder4_2.ops.outputs s.update_state)
    ∧ (∀ s : RippleCarryAdder, 1 ≤ s.n_way →
        RippleCarryAdder.ops.outputs s.update_state.update_state
          = RippleCarryAdder.ops.outputs s.update_state) := by
  refine ⟨fun s => ?_, fun s => ?_, fun s => ?_, fun s => ?_, fun s => ?_,
    fun s h1 => rca_outputs_pure s.update_state s rfl h1 fun _ => rfl⟩
  · rw [halfAdder_outputs_update, halfAdder_outputs_update, halfAdder_update_state_in]
  · rw [fullAdder_outputs_update, fullAdder_outputs_update, fullAdder_update_state_in]
  · rw [encoder21_outputs_update, encoder21_outputs_update, encoder21_update_state_in]
  · rw [encoder42_outputs_update, encoder42_outputs_update, encoder42_update_state_in]
  · rw [Priorityencoder42_outputs_update, Priorityencoder42_outputs_update,
      Priorityencoder42_update_state_in, PriorityEncoder4_2.update_state_big_or_out]

/-- Witness for C7 on a width-2 ripple-carry adder. -/
theorem update_state_idempotent_witness :
    1 ≤ (RippleCarryAdder.new 2).n_way
    ∧ RippleCarryAdder.ops.outputs
        (RippleCarryAdder.new 2).update_state.update_state
      = RippleCarryAdder.ops.outputs (RippleCarryAdder.new 2).update_state :=
  ⟨by decide, update_state_idempotent.2.2.2.2.2 (RippleCarryAdder.new 2) (by decide)⟩

theorem CompOps.inputGo_frame {σ : Type} (c : CompOps σ)
    (hset : ∀ s p v s1, c.set_pin_input s p v = some s1 →
      c.outputs s1 = c.outputs s ∧ c.pin_count s1 = c.pin_count s) :
    ∀ (vs : List Bool) (s : σ) (i : Nat) (s1 : σ), c.inputGo s i vs = some s1 →
      c.outputs s1 = c.outputs s ∧ c.pin_count s1 = c.pin_count s := by
  intro vs
  induction vs with
  | nil =>
    intro s i s1 h
    obtain rfl : s = s1 := Option.some.inj h
    exact ⟨rfl, rfl⟩
  | cons v rest ih =>
    intro s i s1 h
    rw [CompOps.inputGo] at h
    cases hx : c.set_pin_input s i v with
    | none => rw [hx] at h; simp at h
    | some s2 =>
      rw [hx] at h
      simp only [Option.some_bind] at h
      obtain ⟨h1, h2⟩ := hset s i v s2 hx
      obtain ⟨h3, h4⟩ := ih s2 (i + 1) s1 h
      exact ⟨h3.trans h1, h4.trans h2⟩

theorem CompOps.applyActs_frame {σ : Type} (c : CompOps σ)
    (hset : ∀ s p v s1, c.set_pin_input s p v = some s1 →
      c.outputs s1 = c.outputs s ∧ c.pin_count s1 = c.pin_count s) :
    ∀ (acts : List InAct) (s s1 : σ), c.applyActs acts s = some s1 →
      c.outputs s1 = c.outputs s := by
  intro acts
  induction acts with
  | nil =>
    intro s s1 h
    obtain rfl : s = s1 := Option.some.inj h
    rfl
  | cons a acts ih =>
    intro s s1 h
    rw [CompOps.applyActs, List.foldlM_cons] at h
    cases hx : c.applyAct s a with
    | none => rw [hx] at h; simp at h
    | some s2 =>
      rw [hx] at h
      simp only [Option.bind_eq_bind, Option.some_bind] at h
      have h2 : c.outputs s2 = c.outputs s := by
        cases a with
        | set p v => exact (hset s p v s2 hx).1
        | batch vs =>
          have hb : c.inputBatch s vs = some s2 := hx
          rw [CompOps.inputBatch] at hb
          by_cases hl : vs.length ≤ (c.pin_count s).1
          · rw [if_pos hl] at hb
            exact (CompOps.inputGo_frame c hset vs s 0 s2 hb).1
          · rw [if_neg hl] at hb; simp at hb
      exact (ih s2 s1 h).trans h2

theorem halfAdder_set_frame : ∀ (s : HalfAdder) (p : Nat) (v : Bool) (s1 : HalfAdder),
    HalfAdder.ops.set_pin_input s p v = some s1 →
    HalfAdder.ops.outputs s1 = HalfAdder.ops.outputs s
      ∧ HalfAdder.ops.pin_count s1 = HalfAdder.ops.pin_count s := by
  intro s p v s1 h
  have h2 : HalfAdder.set_pin_input s p v = some s1 := h
  by_cases hp : p < 2
  · rw [HalfAdder.set_pin_input, if_pos hp] at h2
    obtain rfl : ({ s with input := Function.update s.input p v } : HalfAdder) = s1 :=
      Option.some.inj h2
    exact ⟨rfl, rfl⟩
  · rw [HalfAdder.set_pin_input, if_neg hp] at h2
    exact absurd h2 (by simp)

theorem fullAdder_set_frame : ∀ (s : FullAdder) (p : Nat) (v : Bool) (s1 : FullAdder),
    FullAdder.ops.set_pin_input s p v = some s1 →
    FullAdder.ops.outputs s1 = FullAdder.ops.outputs s
      ∧ FullAdder.ops.pin_count s1 = FullAdder.ops.pin_count s := by
  intro s p v s1 h
  have h2 : FullAdder.set_pin_input s p v = some s1 := h
  by_cases hp : p < 3
  · rw [FullAdder.set_pin_input, if_pos hp] at h2
    obtain rfl : ({ s with input := Function.update s.input p v } : FullAdder) = s1 :=
      Option.some.inj h2
    exact ⟨rfl, rfl⟩
  · rw [FullAdder.set_pin_input, if_neg hp] at h2
    exact absurd h2 (by simp)

theorem rca_set_frame :
    ∀ (s : RippleCarryAdder) (p : Nat) (v : Bool) (s1 : RippleCarryAdder),
    RippleCarryAdder.ops.set_pin_input s p v = some s1 →
    RippleCarryAdder.ops.outputs s1 = RippleCarryAdder.ops.outputs s
      ∧ RippleCarryAdder.ops.pin_count s1 = RippleCarryAdder.ops.pin_count s := by
  intro s p v s1 h
  have h2 : RippleCarryAdder.set_pin_input s p v = some s1 := h
  by_cases hp : p < 2 * s.n_way + 1
  · rw [RippleCarryAdder.set_pin_input, if_pos hp] at h2
    obtain rfl : ({ s with input := Function.update s.input p v } : RippleCarryAdder) = s1 :=
      Option.some.inj h2
    exact ⟨rfl, rfl⟩
  · rw [RippleCarryAdder.set_pin_input, if_neg hp] at h2
    exact absurd h2 (by simp)

theorem encoder21_set_frame : ∀ (s : Encoder2_1) (p : Nat) (v : Bool) (s1 : Encoder2_1),
    Encoder2_1.ops.set_pin_input s p v = some s1 →
    Encoder2_1.ops.outputs s1 = Encoder2_1.ops.outputs s
      ∧ Encoder2_1.ops.pin_count s1 = Encoder2_1.ops.pin_count s := by
  intro s p v s1 h
  have h2 : Encoder2_1.set_pin_input s p v = some s1 := h
  by_cases hp : p < 2
  · rw [Encoder2_1.set_pin_input, if_pos hp] at h2
    obtain rfl : ({ s with input := Function.update s.input p v } : Encoder2_1) = s1 :=
      Option.some.inj h2
    exact ⟨rfl, rfl⟩
  · rw [Encoder2_1.set_pin_input, if_neg hp] at h2
    exact absurd h2 (by simp)

theorem encoder42_set_frame : ∀ (s : Encoder4_2) (p : Nat) (v : Bool) (s1 : Encoder4_2),
    Encoder4_2.ops.set_pin_input s p v = some s1 →
    Encoder4_2.ops.outputs s1 = Encoder4_2.ops.outputs s
      ∧ Encoder4_2.ops.pin_count s1 = Encoder4_2.ops.pin_count s := by
  intro s p v s1 h
  have h2 : Encoder4_2.set_pin_input s p v = some s1 := h
  by_cases hp : p < 4
  · rw [Encoder4_2.set_pin_input, if_pos hp] at h2
    obtain rfl : ({ s with input := Function.update s.input p v } : Encoder4_2) = s1 :=
      Option.some.inj h2
    exact ⟨rfl, rfl⟩
  · rw [Encoder4_2.set_pin_input, if_neg hp] at h2
    exact absurd h2 (by simp)

theorem Priorityencoder42_set_frame :
    ∀ (s : PriorityEncoder4_2) (p : Nat) (v : Bool) (s1 : PriorityEncoder4_2),
    PriorityEncoder4_2.ops.set_pin_input s p v = some s1 →
    PriorityEncoder4_2.ops.outputs s1 = PriorityEncoder4_2.ops.outputs s
      ∧ PriorityEncoder4_2.ops.pin_count s1 = PriorityEncoder4_2.ops.pin_count s := by
  intro s p v s1 h
  have h2 : PriorityEncoder4_2.set_pin_input s p v = some s1 := h
  by_cases hp : p < 4
  · rw [PriorityEncoder4_2.set_pin_input, if_pos hp] at h2
    obtain rfl :
        ({ s with input := Function.update s.input p v } : PriorityEncoder4_2) = s1 :=
      Option.some.inj h2
    exact ⟨rfl, rfl⟩
  · rw [PriorityEncoder4_2.set_pin_input, if_neg hp] at h2
    exact absurd h2 (by simp)

/-- C3: no in-range sequence of `set_pin_input` or batch `input` calls
changes any output pin of a modeled component; output pins change only
through `update_state`. -/
theorem input_calls_do_not_change_outputs :
    (∀ (acts : List InAct) (s s1 : HalfAdder),
        HalfAdder.ops.applyActs acts s = some s1 →
        HalfAdder.ops.outputs s1 = HalfAdder.ops.outputs s)
    ∧ (∀ (acts : List InAct) (s s1 : FullAdder),
        FullAdder.ops.applyActs acts s = some s1 →
        FullAdder.ops.outputs s1 = FullAdder.ops.outputs s)
    ∧ (∀ (acts : List InAct) (s s1 : RippleCarryAdder),
        RippleCarryAdder.ops.applyActs acts s = some s1 →
        RippleCarryAdder.ops.outputs s1 = RippleCarryAdder.ops.outputs s)
    ∧ (∀ (acts : List InAct) (s s1 : Encoder2_1),
        Encoder2_1.ops.applyActs acts s = some s1 →
        Encoder2_1.ops.outputs s1 = Encoder2_1.ops.outputs s)
    ∧ (∀ (acts : List InAct) (s s1 : Encoder4_2),
        Encoder4_2.ops.applyActs acts s = some s1 →
        Encoder4_2.ops.outputs s1 = Encoder4_2.ops.outputs s)
    ∧ (∀ (acts : List InAct) (s s1 : PriorityEncoder4_2),
        PriorityEncoder4_2.ops.applyActs acts s = some s1 →
        PriorityEncoder4_2.ops.outputs s1 = PriorityEncoder4_2.ops.outputs s) :=
  ⟨CompOps.applyActs_frame _ halfAdder_set_frame,
   CompOps.applyActs_frame _ fullAdder_set_frame,
   CompOps.applyActs_frame _ rca_set_frame,
   CompOps.applyActs_frame _ encoder21_set_frame,
   CompOps.applyActs_frame _ encoder42_set_frame,
   CompOps.applyActs_frame _ Priorityencoder42_set_frame⟩

/-- The input-call sequence of the C3 witness. -/
def c3acts : List InAct := [InAct.set 0 true, InAct.batch [true, false]]

/-- The state reached by the C3 witness calls. -/
def c3wit : HalfAdder :=
  (HalfAdder.ops.applyActs c3acts HalfAdder.mkDefault).getD HalfAdder.mkDefault

/-- Witness for C3: a set call followed by a batch call on a half adder
leaves the outputs unchanged. -/
theorem input_calls_do_not_change_outputs_witness :
    HalfAdder.ops.applyActs c3acts HalfAdder.mkDefault = some c3wit
    ∧ HalfAdder.ops.outputs c3wit = HalfAdder.ops.outputs HalfAdder.mkDefault :=
  ⟨rfl, input_calls_do_not_change_outputs.1 c3acts HalfAdder.mkDefault c3wit rfl⟩

theorem CompOps.inputGo_isSome {σ : Type} (c : CompOps σ) (K : σ → Nat)
    (hset : ∀ (s : σ) (p : Nat) (v : Bool),
      (c.set_pin_input s p v).isSome = decide (p < K s))
    (hpres : ∀ (s : σ) (p : Nat) (v : Bool) (s1 : σ),
      c.set_pin_input s p v = some s1 → K s1 = K s) :
    ∀ (vs : List Bool) (s : σ) (i : Nat), i + vs.length ≤ K s →
      (c.inputGo s i vs).isSome = true := by
  intro vs
  induction vs with
  | nil => intro s i _; rfl
  | cons v rest ih =>
    intro s i h
    rw [CompOps.inputGo]
    have h1 : (c.set_pin_input s i v).isSome = true := by
      rw [hset]
      simp only [List.length_cons] at h
      simp only [decide_eq_true_eq]
      omega
    obtain ⟨s2, hs2⟩ := Option.isSome_iff_exists.mp h1
    rw [hs2, Option.some_bind]
    refine ih s2 (i + 1) ?_
    rw [hpres s i v s2 hs2]
    simp only [List.length_cons] at h
    omega

theorem CompOps.inputBatch_isSome {σ : Type} (c : CompOps σ) (K : σ → Nat)
    (hcount : ∀ s : σ, (c.pin_count s).1 = K s)
    (hset : ∀ (s : σ) (p : Nat) (v : Bool),
      (c.set_pin_input s p v).isSome = decide (p < K s))
    (hpres : ∀ (s : σ) (p : Nat) (v : Bool) (s1 : σ),
      c.set_pin_input s p v = some s1 → K s1 = K s) :
    ∀ (s : σ) (vs : List Bool),
      (c.inputBatch s vs).isSome = decide (vs.length ≤ (c.pin_count s).1) := by
  intro s vs
  rw [CompOps.inputBatch]
  by_cases h : vs.length ≤ (c.pin_count s).1
  · rw [if_pos h, CompOps.inputGo_isSome c K hset hpres vs s 0 (by
      rw [← hcount]; omega)]
    simp [h]
  · rw [if_neg h]
    simp [h]

theorem halfAdder_set_isSome (s : HalfAdder) (p : Nat) (v : Bool) :
    (HalfAdder.ops.set_pin_input s p v).isSome = decide (p < 2) := by
  show (HalfAdder.set_pin_input s p v).isSome = _
  rw [HalfAdder.set_pin_input]
  by_cases hp : p < 2 <;> simp [hp]

theorem halfAdder_set_K_const (s : HalfAdder) (p : Nat) (v : Bool) (s1 : HalfAdder) :
    HalfAdder.ops.set_pin_input s p v = some s1 → (fun _ : HalfAdder => 2) s1 = 2 :=
  fun _ => rfl

theorem fullAdder_set_isSome (s : FullAdder) (p : Nat) (v : Bool) :
    (FullAdder.ops.set_pin_input s p v).isSome = decide (p < 3) := by
  show (FullAdder.set_pin_input s p v).isSome = _
  rw [FullAdder.set_pin_input]
  by_cases hp : p < 3 <;> simp [hp]

theorem rca_set_isSome (s : RippleCarryAdder) (p : Nat) (v : Bool) :
    (RippleCarryAdder.ops.set_pin_input s p v).isSome = decide (p < 2 * s.n_way + 1) := by
  show (RippleCarryAdder.set_pin_input s p v).isSome = _
  rw [RippleCarryAdder.set_pin_input]
  by_cases hp : p < 2 * s.n_way + 1 <;> simp [hp]

theorem RippleCarryAdder.set_preserves_n_way (s : RippleCarryAdder) (p : Nat) (v : Bool)
    (s1 : RippleCarryAdder) (h : RippleCarryAdder.ops.set_pin_input s p v = some s1) :
    2 * s1.n_way + 1 = 2 * s.n_way + 1 := by
  have h2 : RippleCarryAdder.set_pin_input s p v = some s1 := h
  by_cases hp : p < 2 * s.n_way + 1
  · rw [RippleCarryAdder.set_pin_input, if_pos hp] at h2
    obtain rfl : ({ s with input := Function.update s.input p v } : RippleCarryAdder) = s1 :=
      Option.some.inj h2
    rfl
  · rw [RippleCarryAdder.set_pin_input, if_neg hp] at h2
    exact absurd h2 (by simp)

theorem priorityEncoder_set_isSome (s : PriorityEncoder4_2) (p : Nat) (v : Bool) :
    (PriorityEncoder4_2.ops.set_pin_input s p v).isSome = decide (p < 4) := by
  show (PriorityEncoder4_2.set_pin_input s p v).isSome = _
  rw [PriorityEncoder4_2.set_pin_input]
  by_cases hp : p < 4 <;> simp [hp]

/-- C8: for each modeled component, `set_pin_input` succeeds exactly when
the position is below the input pin count, `get_pin_output` succeeds
exactly when the position is below the output pin count, and the batch
`input` succeeds exactly when the vector is not longer than the input pin
count; a failed call is an abort (`none`) that produces no new state. -/
theorem pin_contract_aborts :
    (∀ (s : HalfAdder) (p : Nat) (v : Bool),
        (HalfAdder.ops.set_pin_input s p v).isSome
          = decide (p < (HalfAdder.ops.pin_count s).1))
    ∧ (∀ (s : HalfAdder) (p : Nat),
        (HalfAdder.ops.get_pin_output s p).isSome
          = decide (p < (HalfAdder.ops.pin_count s).2))
    ∧ (∀ (s : HalfAdder) (vs : List Bool),
        (HalfAdder.ops.inputBatch s vs).isSome
          = decide (vs.length ≤ (HalfAdder.ops.pin_count s).1))
    ∧ (∀ (s : FullAdder) (p : Nat) (v : Bool),
        (FullAdder.ops.set_pin_input s p v).isSome
          = decide (p < (FullAdder.ops.pin_count s).1))
    ∧ (∀ (s : FullAdder) (p : Nat),
        (FullAdder.ops.get_pin_output s p).isSome
          = decide (p < (FullAdder.ops.pin_count s).2))
    ∧ (∀ (s : FullAdder) (vs : List Bool),
        (FullAdder.ops.inputBatch s vs).isSome
          = decide (vs.length ≤ (FullAdder.ops.pin_count s).1))
    ∧ (∀ (s : RippleCarryAdder) (p : Nat) (v : Bool),
        (RippleCarryAdder.ops.set_pin_input s p v).isSome
          = decide (p < (RippleCarryAdder.ops.pin_count s).1))
    ∧ (∀ (s : RippleCarryAdder) (p : Nat),
        (RippleCarryAdder.ops.get_pin_output s p).isSome
          = decide (p < (RippleCarryAdder.ops.pin_count s).2))
    ∧ (∀ (s : RippleCarryAdder) (vs : List Bool),
        (RippleCarryAdder.ops.inputBatch s vs).isSome
          = decide (vs.length ≤ (RippleCarryAdder.ops.pin_count s).1))
    ∧ (∀ (s : PriorityEncoder4_2) (p : Nat) (v : Bool),
        (PriorityEncoder4_2.ops.set_pin_input s p v).isSome
          = decide (p < (PriorityEncoder4_2.ops.pin_count s).1))
    ∧ (∀ (s : PriorityEncoder4_2) (p : Nat),
        (PriorityEncoder4_2.ops.get_pin_output s p).isSome
          = decide (p < (PriorityEncoder4_2.ops.pin_count s).2))
    ∧ (∀ (s : PriorityEncoder4_2) (vs : List Bool),
        (PriorityEncoder4_2.ops.inputBatch s vs).isSome
          = decide (vs.length ≤ (PriorityEncoder4_2.ops.pin_count s).1)) := by
  refine ⟨halfAdder_set_isSome, ?_,
    CompOps.inputBatch_isSome HalfAdder.ops (fun _ => 2) (fun _ => rfl)
      halfAdder_set_isSome (fun s p v s1 _ => rfl),
    fullAdder_set_isSome, ?_,
    CompOps.inputBatch_isSome FullAdder.ops (fun _ => 3) (fun _ => rfl)
      fullAdder_set_isSome (fun s p v s1 _ => rfl),
    rca_set_isSome, ?_,
    CompOps.inputBatch_isSome RippleCarryAdder.ops (fun s => 2 * s.n_way + 1)
      (fun _ => rfl) rca_set_isSome RippleCarryAdder.set_preserves_n_way,
    priorityEncoder_set_isSome, ?_,
    CompOps.inputBatch_isSome PriorityEncoder4_2.ops (fun _ => 4) (fun _ => rfl)
      priorityEncoder_set_isSome (fun s p v s1 _ => rfl)⟩
  · intro s p
    show (HalfAdder.get_pin_output s p).isSome = _
    rw [HalfAdder.get_pin_output]
    by_cases hp : p < 2 <;> simp [hp] <;>
      first
      | exact hp
      | exact Nat.le_of_not_lt hp
  · intro s p
    show (FullAdder.get_pin_output s p).isSome = _
    rw [FullAdder.get_pin_output]
    by_cases hp : p < 2 <;> simp [hp] <;>
      first
      | exact hp
      | exact Nat.le_of_not_lt hp
  · intro s p
    show (RippleCarryAdder.get_pin_output s p).isSome = _
    rw [RippleCarryAdder.get_pin_output]
    by_cases hp : p < s.n_way + 1 <;> simp [hp] <;>
      first
      | exact hp
      | exact Nat.le_of_not_lt hp
  · intro s p
    show (PriorityEncoder4_2.get_pin_output s p).isSome = _
    rw [PriorityEncoder4_2.get_pin_output]
    by_cases hp : p < 3 <;> simp [hp] <;>
      first
      | exact hp
      | exact Nat.le_of_not_lt hp

/-- The three characters the `Potentials` parsers accept. -/
def isRawChar (c : Char) : Bool := c == '0' || c == '1' || c == ' '

/-- The bit content of a codec string: `'0'`/`'1'` characters in order,
spaces dropped. -/
def bitsOf (s : List Char) : List Bool :=
  s.filterMap fun c => if c = '0' then some false else if c = '1' then some true else none

theorem fromLEStep_valid (ip : Bool) (st : List Bool × Bool) (c : Char)
    (h : isRawChar c = true) : ∃ st2, fromLEStep ip st c = some st2 := by
  rw [fromLEStep]
  by_cases h0 : c = '0'
  · rw [if_pos h0]; exact ⟨_, rfl⟩
  · rw [if_neg h0]
    by_cases h1 : c = '1'
    · rw [if_pos h1]; exact ⟨_, rfl⟩
    · rw [if_neg h1]
      by_cases h2 : c = ' '
      · rw [if_pos h2]; exact ⟨_, rfl⟩
      · exfalso; rw [isRawChar] at h; simp [h0, h1, h2] at h

theorem fromLEStep_invalid (ip : Bool) (st : List Bool × Bool) (c : Char)
    (h : isRawChar c = false) : fromLEStep ip st c = none := by
  rw [isRawChar] at h
  simp only [Bool.or_eq_false_iff, beq_eq_false_iff_ne, ne_eq] at h
  rw [fromLEStep, if_neg h.1.1, if_neg h.1.2, if_neg h.2]

theorem fromBEStep_valid (ip : Bool) (st : List Bool × Bool) (c : Char)
    (h : isRawChar c = true) : ∃ st2, fromBEStep ip st c = some st2 := by
  rw [fromBEStep]
  by_cases h0 : c = '0'
  · rw [if_pos h0]; exact ⟨_, rfl⟩
  · rw [if_neg h0]
    by_cases h1 : c = '1'
    · rw [if_pos h1]; exact ⟨_, rfl⟩
    · rw [if_neg h1]
      by_cases h2 : c = ' '
      · rw [if_pos h2]; exact ⟨_, rfl⟩
      · exfalso; rw [isRawChar] at h; simp [h0, h1, h2] at h

theorem fromBEStep_invalid (ip : Bool) (st : List Bool × Bool) (c : Char)
    (h : isRawChar c = false) : fromBEStep ip st c = none := by
  rw [isRawChar] at h
  simp only [Bool.or_eq_false_iff, beq_eq_false_iff_ne, ne_eq] at h
  rw [fromBEStep, if_neg h.1.1, if_neg h.1.2, if_neg h.2]

theorem foldlM_fromLEStep_isSome (ip : Bool) :
    ∀ (l : List Char) (st : List Bool × Bool),
      ((l.foldlM (fromLEStep ip) st).isSome) = l.all isRawChar := by
  intro l
  induction l with
  | nil => intro st; rfl
  | cons c rest ih =>
    intro st
    rw [List.foldlM_cons, List.all_cons]
    by_cases hv : isRawChar c = true
    · obtain ⟨st2, hst2⟩ := fromLEStep_valid ip st c hv
      rw [hst2, hv]
      simp only [Option.bind_eq_bind, Option.some_bind, Bool.true_and]
      exact ih st2
    · rw [fromLEStep_invalid ip st c (by simpa using hv)]
      simp only [Option.bind_eq_bind, Option.none_bind, Option.isSome_none]
      rw [Bool.eq_false_iff.mpr hv]
      rfl

theorem foldlM_fromBEStep_isSome (ip : Bool) :
    ∀ (l : List Char) (st : List Bool × Bool),
      ((l.foldlM (fromBEStep ip) st).isSome) = l.all isRawChar := by
  intro l
  induction l with
  | nil => intro st; rfl
  | cons c rest ih =>
    intro st
    rw [List.foldlM_cons, List.all_cons]
    by_cases hv : isRawChar c = true
    · obtain ⟨st2, hst2⟩ := fromBEStep_valid ip st c hv
      rw [hst2, hv]
      simp only [Option.bind_eq_bind, Option.some_bind, Bool.true_and]
      exact ih st2
    · rw [fromBEStep_invalid ip st c (by simpa using hv)]
      simp only [Option.bind_eq_bind, Option.none_bind, Option.isSome_none]
      rw [Bool.eq_false_iff.mpr hv]
      rfl

/-- C9: `to_raw` aborts exactly for `format_type > 2`, and the two string
parsers abort exactly on strings containing a character other than `'0'`,
`'1'` or space (for either `ignore_padding` setting). -/
theorem codec_contract_aborts :
    (∀ (p : Potentials) (le : Bool) (ft : Nat),
        (p.to_raw le ft).isSome = decide (ft ≤ 2))
    ∧ (∀ (s : List Char) (ip : Bool),
        (Potentials.from_little_endian s ip).isSome = s.all isRawChar)
    ∧ (∀ (s : List Char) (ip : Bool),
        (Potentials.from_big_endian s ip).isSome = s.all isRawChar) := by
  refine ⟨?_, ?_, ?_⟩
  · intro p le ft
    rw [Potentials.to_raw]
    by_cases h : ft ≤ 2
    · rw [if_pos h]
      by_cases hx : xor p.little_endian le <;> simp [hx, h]
    · rw [if_neg h]
      simp [h]
  · intro s ip
    rw [Potentials.from_little_endian, Option.isSome_map',
      foldlM_fromLEStep_isSome, List.all_reverse]
  · intro s ip
    rw [Potentials.from_big_endian, Option.isSome_map', foldlM_fromBEStep_isSome]

theorem bitsOf_cons_zero (rest : List Char) : bitsOf ('0' :: rest) = false :: bitsOf rest := rfl

theorem bitsOf_cons_one (rest : List Char) : bitsOf ('1' :: rest) = true :: bitsOf rest := rfl

theorem bitsOf_cons_space (rest : List Char) : bitsOf (' ' :: rest) = bitsOf rest := rfl

theorem foldlM_fromLEStep_keep :
    ∀ (l : List Char) (acc : List Bool) (ig : Bool), l.all isRawChar = true →
      ∃ ig2, l.foldlM (fromLEStep false) (acc, ig) = some (acc ++ bitsOf l, ig2) := by
  intro l
  induction l with
  | nil => intro acc ig _; exact ⟨ig, by simp [bitsOf]⟩
  | cons c rest ih =>
    intro acc ig hall
    rw [List.all_cons, Bool.and_eq_true] at hall
    obtain ⟨hc, hrest⟩ := hall
    rw [List.foldlM_cons]
    by_cases h0 : c = '0'
    · subst h0
      have hstep : fromLEStep false (acc, ig) '0' = some (acc ++ [false], ig && true) := rfl
      rw [hstep]
      simp only [Option.bind_eq_bind, Option.some_bind]
      obtain ⟨ig2, hrec⟩ := ih (acc ++ [false]) (ig && true) hrest
      refine ⟨ig2, ?_⟩
      rw [hrec, bitsOf_cons_zero]
      simp
    · by_cases h1 : c = '1'
      · subst h1
        have hstep : fromLEStep false (acc, ig) '1' = some (acc ++ [true], ig && false) := rfl
        rw [hstep]
        simp only [Option.bind_eq_bind, Option.some_bind]
        obtain ⟨ig2, hrec⟩ := ih (acc ++ [true]) (ig && false) hrest
        refine ⟨ig2, ?_⟩
        rw [hrec, bitsOf_cons_one]
        simp
      · by_cases h2 : c = ' '
        · subst h2
          have hstep : fromLEStep false (acc, ig) ' ' = some (acc, ig) := rfl
          rw [hstep]
          simp only [Option.bind_eq_bind, Option.some_bind]
          obtain ⟨ig2, hrec⟩ := ih acc ig hrest
          exact ⟨ig2, by rw [hrec, bitsOf_cons_space]⟩
        · exfalso; rw [isRawChar] at hc; simp [h0, h1, h2] at hc

theorem foldlM_fromBEStep_keep :
    ∀ (l : List Char) (acc : List Bool) (ig : Bool), l.all isRawChar = true →
      ∃ ig2, l.foldlM (fromBEStep false) (acc, ig) = some (acc ++ bitsOf l, ig2) := by
  intro l
  induction l with
  | nil => intro acc ig _; exact ⟨ig, by simp [bitsOf]⟩
  | cons c rest ih =>
    intro acc ig hall
    rw [List.all_cons, Bool.and_eq_true] at hall
    obtain ⟨hc, hrest⟩ := hall
    rw [List.foldlM_cons]
    by_cases h0 : c = '0'
    · subst h0
      have hstep : fromBEStep false (acc, ig) '0' = some (acc ++ [false], ig && true) := rfl
      rw [hstep]
      simp only [Option.bind_eq_bind, Option.some_bind]
      obtain ⟨ig2, hrec⟩ := ih (acc ++ [false]) (ig && true) hrest
      refine ⟨ig2, ?_⟩
      rw [hrec, bitsOf_cons_zero]
      simp
    · by_cases h1 : c = '1'
      · subst h1
        have hstep : fromBEStep false (acc, ig) '1' = some (acc ++ [true], ig && false) := rfl
        rw [hstep]
        simp only [Option.bind_eq_bind, Option.some_bind]
        obtain ⟨ig2, hrec⟩ := ih (acc ++ [true]) (ig && false) hrest
        refine ⟨ig2, ?_⟩
        rw [hrec, bitsOf_cons_one]
        simp
      · by_cases h2 : c = ' '
        · subst h2
          have hstep : fromBEStep false (acc, ig) ' ' = some (acc, ig) := rfl
          rw [hstep]
          simp only [Option.bind_eq_bind, Option.some_bind]
          obtain ⟨ig2, hrec⟩ := ih acc ig hrest
          exact ⟨ig2, by rw [hrec, bitsOf_cons_space]⟩
        · exfalso; rw [isRawChar] at hc; simp [h0, h1, h2] at hc

theorem from_little_endian_keep (s : List Char) (h : s.all isRawChar = true) :
    Potentials.from_little_endian s false
      = some { data := bitsOf s, little_endian := true } := by
  rw [Potentials.from_little_endian]
  obtain ⟨ig2, hfold⟩ := foldlM_fromLEStep_keep s.reverse [] true (by
    rw [List.all_reverse]; exact h)
  rw [hfold, Option.map_some']
  simp only [List.nil_append]
  have hrev : bitsOf s.reverse = (bitsOf s).reverse := by
    rw [bitsOf, bitsOf, List.filterMap_reverse]
  rw [hrev, List.reverse_reverse]

theorem from_big_endian_keep (s : List Char) (h : s.all isRawChar = true) :
    Potentials.from_big_endian s false
      = some { data := bitsOf s, little_endian := false } := by
  rw [Potentials.from_big_endian]
  obtain ⟨ig2, hfold⟩ := foldlM_fromBEStep_keep s [] true h
  rw [hfold, Option.map_some']
  simp only [List.nil_append]

theorem bitsOf_append (l1 l2 : List Char) : bitsOf (l1 ++ l2) = bitsOf l1 ++ bitsOf l2 := by
  rw [bitsOf, bitsOf, bitsOf, List.filterMap_append]

theorem bitsOf_replicate_zero : ∀ k : Nat, bitsOf (List.replicate k '0') = List.replicate k false := by
  intro k
  induction k with
  | zero => rfl
  | succ k ih => rw [List.replicate_succ, List.replicate_succ, bitsOf_cons_zero, ih]

theorem bitsOf_formatLoop (ft : Nat) :
    ∀ (items : List Bool) (cursor : Nat), bitsOf (formatLoop ft cursor items) = items := by
  intro items
  induction items with
  | nil => intro cursor; rfl
  | cons p rest ih =>
    intro cursor
    rw [formatLoop]
    by_cases h1 : ft = 1 ∧ (cursor + 1) % 4 = 0 ∧ cursor + 1 ≠ 0
    · rw [if_pos h1]
      cases p
      · rw [show bitChar false = '0' from rfl, bitsOf_cons_zero, bitsOf_cons_space, ih]
      · rw [show bitChar true = '1' from rfl, bitsOf_cons_one, bitsOf_cons_space, ih]
    · rw [if_neg h1]
      by_cases h2 : ft = 2 ∧ (cursor + 1) % 8 = 0 ∧ cursor + 1 ≠ 0
      · rw [if_pos h2]
        cases p
        · rw [show bitChar false = '0' from rfl, bitsOf_cons_zero, bitsOf_cons_space, ih]
        · rw [show bitChar true = '1' from rfl, bitsOf_cons_one, bitsOf_cons_space, ih]
      · rw [if_neg h2]
        cases p
        · rw [show bitChar false = '0' from rfl, bitsOf_cons_zero, ih]
        · rw [show bitChar true = '1' from rfl, bitsOf_cons_one, ih]

theorem bitsOf_dropWhile_space :
    ∀ l : List Char, bitsOf (l.dropWhile fun c => c = ' ') = bitsOf l := by
  intro l
  induction l with
  | nil => rfl
  | cons c rest ih =>
    by_cases hc : c = ' '
    · subst hc
      rw [List.dropWhile_cons_of_pos (by simp), ih, bitsOf_cons_space]
    · rw [List.dropWhile_cons_of_neg (by simp [hc])]

theorem bitsOf_trimEnd (s : List Char) : bitsOf (trimEnd s) = bitsOf s := by
  rw [trimEnd]
  have h1 : ∀ t : List Char, bitsOf t.reverse = (bitsOf t).reverse := by
    intro t
    rw [bitsOf, bitsOf, List.filterMap_reverse]
  rw [h1, bitsOf_dropWhile_space, h1, List.reverse_reverse]

theorem bitsOf_formatRaw (items : List Bool) (ft : Nat) (le : Bool) :
    bitsOf (formatRaw items ft le)
      = if le then items ++ List.replicate (padCount ft items.length) false
        else List.replicate (padCount ft items.length) false ++ items := by
  rw [formatRaw]
  cases le
  · simp only [Bool.not_false, if_pos, if_neg, Bool.false_eq_true, ite_true, ite_false]
    rw [bitsOf_trimEnd, bitsOf_append, bitsOf_append, bitsOf_formatLoop,
      bitsOf_replicate_zero]
    simp [bitsOf]
  · simp only [Bool.not_true, Bool.false_eq_true, ite_true, ite_false]
    rw [bitsOf_trimEnd, bitsOf_append, bitsOf_append, bitsOf_formatLoop,
      bitsOf_replicate_zero]
    simp [bitsOf]

theorem formatLoop_all_valid (ft : Nat) :
    ∀ (items : List Bool) (cursor : Nat), (formatLoop ft cursor items).all isRawChar = true := by
  intro items
  induction items with
  | nil => intro cursor; rfl
  | cons p rest ih =>
    intro cursor
    rw [formatLoop]
    have hbit : isRawChar (bitChar p) = true := by cases p <;> rfl
    have hsp : isRawChar ' ' = true := rfl
    by_cases h1 : ft = 1 ∧ (cursor + 1) % 4 = 0 ∧ cursor + 1 ≠ 0
    · rw [if_pos h1]
      simp [hbit, hsp, ih]
    · rw [if_neg h1]
      by_cases h2 : ft = 2 ∧ (cursor + 1) % 8 = 0 ∧ cursor + 1 ≠ 0
      · rw [if_pos h2]
        simp [hbit, hsp, ih]
      · rw [if_neg h2]
        simp [hbit, ih]

theorem formatRaw_all_valid (items : List Bool) (ft : Nat) (le : Bool) :
    (formatRaw items ft le).all isRawChar = true := by
  rw [formatRaw]
  have hrep : ∀ k : Nat, (List.replicate k '0').all isRawChar = true := by
    intro k
    induction k with
    | zero => rfl
    | succ k ih => rw [List.replicate_succ, List.all_cons, ih]; rfl
  have hcore : ∀ l : List Char, l.all isRawChar = true → (trimEnd l).all isRawChar = true := by
    intro l hl
    rw [List.all_eq_true] at hl ⊢
    intro x hx
    refine hl x ?_
    rw [trimEnd] at hx
    rw [List.mem_reverse] at hx
    have := (List.dropWhile_sublist (l := l.reverse) fun c => c = ' ').subset hx
    rw [List.mem_reverse] at this
    exact this
  refine hcore _ ?_
  rw [List.all_append, List.all_append]
  rw [formatLoop_all_valid]
  cases le <;> simp [hrep]

/-- C2 (counterexample): serializing the one-bit little-endian sequence
`[1]` with `format_type = 1` pads it to `"1000"`, and parsing that back
with `ignore_padding = false` yields `[1,0,0,0]`, not the original `[1]` —
so the round trip does not reproduce S exactly for every format type. -/
theorem potentials_roundtrip_counterexample :
    (Potentials.of_little_endian [true]).to_raw true 1 = some ['1', '0', '0', '0']
    ∧ (Potentials.from_little_endian ['1', '0', '0', '0'] false).map Potentials.data
        = some [true, false, false, false]
    ∧ [true, false, false, false] ≠ [true] := by
  refine ⟨by decide, by decide, by decide⟩

/-- C2 (amended): serializing a `Potentials` built from S with endianness
E via `to_raw` in endianness E and parsing it back with the matching
parser (`ignore_padding = false`) reproduces S extended with the group
padding zeros — appended for little-endian storage, prepended for
big-endian storage — and hence exactly S whenever no padding is added:
always for `format_type = 0`, and for format types 1 and 2 exactly when
the length of S is a multiple of 4 resp. 8. -/
theorem potentials_roundtrip_padded (S : List Bool) (E : Bool) (ft : Nat) (hft : ft ≤ 2) :
    ∃ raw q,
      (if E then Potentials.of_little_endian S else Potentials.of_big_endian S).to_raw E ft
          = some raw
      ∧ (if E then Potentials.from_little_endian raw false
          else Potentials.from_big_endian raw false) = some q
      ∧ q.little_endian = E
      ∧ q.data = (if E then S ++ List.replicate (padCount ft S.length) false
          else List.replicate (padCount ft S.length) false ++ S)
      ∧ (padCount ft S.length = 0 → q.data = S)
      ∧ (ft = 0 → q.data = S) := by
  cases E
  · refine ⟨formatRaw S ft false, ⟨bitsOf (formatRaw S ft false), false⟩,
      ?_, ?_, rfl, ?_, ?_, ?_⟩
    · show (Potentials.of_big_endian S).to_raw false ft = _
      rw [Potentials.to_raw, if_pos hft]
      rw [show xor (Potentials.of_big_endian S).little_endian false = false from rfl]
      rw [if_neg (by simp)]
      rfl
    · show Potentials.from_big_endian (formatRaw S ft false) false = _
      exact from_big_endian_keep _ (formatRaw_all_valid S ft false)
    · show bitsOf (formatRaw S ft false) = _
      rw [bitsOf_formatRaw]
    · intro hpad
      show bitsOf (formatRaw S ft false) = S
      rw [bitsOf_formatRaw]
      simp [hpad]
    · intro hft0
      show bitsOf (formatRaw S ft false) = S
      rw [bitsOf_formatRaw]
      subst hft0
      simp [padCount]
  · refine ⟨formatRaw S ft true, ⟨bitsOf (formatRaw S ft true), true⟩,
      ?_, ?_, rfl, ?_, ?_, ?_⟩
    · show (Potentials.of_little_endian S).to_raw true ft = _
      rw [Potentials.to_raw, if_pos hft]
      rw [show xor (Potentials.of_little_endian S).little_endian true = false from rfl]
      rw [if_neg (by simp)]
      rfl
    · show Potentials.from_little_endian (formatRaw S ft true) false = _
      exact from_little_endian_keep _ (formatRaw_all_valid S ft true)
    · show bitsOf (formatRaw S ft true) = _
      rw [bitsOf_formatRaw]
    · intro hpad
      show bitsOf (formatRaw S ft true) = S
      rw [bitsOf_formatRaw]
      simp [hpad]
    · intro hft0
      show bitsOf (formatRaw S ft true) = S
      rw [bitsOf_formatRaw]
      subst hft0
      simp [padCount]

/-- Witness for the amended C2 at S = [1], E = little, format_type = 1. -/
theorem potentials_roundtrip_padded_witness :
    (1 : Nat) ≤ 2
    ∧ ∃ raw q,
      (if true then Potentials.of_little_endian [true]
        else Potentials.of_big_endian [true]).to_raw true 1 = some raw
      ∧ (if true then Potentials.from_little_endian raw false
          else Potentials.from_big_endian raw false) = some q
      ∧ q.little_endian = true
      ∧ q.data = (if true then [true] ++ List.replicate (padCount 1 [true].length) false
          else List.replicate (padCount 1 [true].length) false ++ [true])
      ∧ (padCount 1 [true].length = 0 → q.data = [true])
      ∧ ((1 : Nat) = 0 → q.data = [true]) :=
  ⟨by decide, potentials_roundtrip_padded [true] true 1 (by decide)⟩
